import Mathlib

/-!
KY-024 Hall sensor sketch (`src/main.cpp`): debounce, sampling and redraw logic.

A shallow embedding of the global variables and of `setup()` / `loop()` of
`src/main.cpp`, followed by theorems about the digital debounce filter, the
analog sampling filter and the redraw decisions.

Modelling conventions.

* The global variables of the sketch are the fields of `State`
  (`lastAnalogValue` is declared by the sketch but never read or written, so it
  carries no field).
* `unsigned long` is 32 bits wide on the target (ESP32-S3).  Timestamps are
  natural numbers and the subtraction `millis() - last` is `subUL`, the
  difference modulo `2 ^ 32`.
* `int` values (pin levels, ADC readings) are integers, and the difference
  `analogReading - analogValue` of line 169 and its `abs` are taken over the
  integers.  That is the value of the 32-bit `int` computation whenever it does
  not overflow (`DiffFits`), which is the case in every state reached from the
  initial state with readings that fit an `int` (`reachable_diffFits`).
  Theorems that fix the outcome of that comparison for an arbitrary state carry
  `DiffFits` as a premise.
* One iteration of `loop()` receives its three inputs as an `Input`: the value
  returned by `digitalRead`, the value `analogRead` returns if it is called, and
  the value of `millis()`, taken to be the same at every call of one iteration.
* The display is a collaborator: the calls made on `tft` are recorded as a
  list of `TftOp`, and the calls `loop()` makes to `updateDigitalState()` and
  `updateAnalogValue()` are recorded as a list of `Render`, each carrying the
  value of the global variable the function prints.
-/

namespace KY024

/-! ## Constants -/

/-- Arduino pin level `HIGH` (`0x1`). -/
def HIGH : Int := 1

/-- Arduino pin level `LOW` (`0x0`). -/
def LOW : Int := 0

/-- Number of values of an `unsigned long` on the target: `2 ^ 32`. -/
def ULONG_RANGE : Nat := 4294967296

/-- Source: `const unsigned long analogReadInterval = 100;`. -/
def analogReadInterval : Nat := 100

/-- Source: `const unsigned long debounceInterval = 50;`. -/
def debounceInterval : Nat := 50

/-- Subtraction of two `unsigned long` values, `a - b` modulo `2 ^ 32`. -/
def subUL (a b : Nat) : Nat :=
  (a % ULONG_RANGE + (ULONG_RANGE - b % ULONG_RANGE)) % ULONG_RANGE

/-! ## State -/

/-- The global variables of the sketch. -/
structure State where
  digitalState : Int
  lastDigitalState : Int
  analogValue : Int
  redrawDigital : Bool
  redrawAnalog : Bool
  lastAnalogReadTime : Nat
  lastDebounceTime : Nat
  deriving DecidableEq, Repr

/-- The initialisers of the global variables. -/
def init : State where
  digitalState := HIGH
  lastDigitalState := HIGH
  analogValue := 0
  redrawDigital := false
  redrawAnalog := false
  lastAnalogReadTime := 0
  lastDebounceTime := 0

/-- What one iteration of `loop()` reads from its environment. -/
structure Input where
  digitalReading : Int
  analogReading : Int
  now : Nat
  deriving DecidableEq, Repr

/-! ## Display -/

/-- Colours used by the sketch (`TFT_BLACK`, `TFT_WHITE`). -/
inductive Colour where
  | black
  | white
  deriving DecidableEq, Repr

/-- The calls the sketch makes on the `tft` object. -/
inductive TftOp where
  | init
  | setRotation (r : Nat)
  | fillScreen (c : Colour)
  | setTextFont (f : Nat)
  | setTextColor (fg bg : Colour)
  | setCursor (x y : Int)
  | print (text : String)
  | println (text : String)
  | printInt (value : Int)
  deriving DecidableEq, Repr

/-- The 24 spaces both update functions print to clear a value line. -/
def blankLine : String := "                        "

/-- Source: `drawStaticElements()`. -/
def drawStaticElements : List TftOp :=
  [ TftOp.fillScreen Colour.black,
    TftOp.setTextFont 2,
    TftOp.setTextColor Colour.white Colour.black,
    TftOp.setCursor 0 0,
    TftOp.println "---------------------------",
    TftOp.println "KY024 Hall Sensor Module",
    TftOp.println "---------------------------",
    TftOp.setCursor 0 70,
    TftOp.print "Digital State:",
    TftOp.setCursor 0 120,
    TftOp.print "Analog Value:" ]

/-- The text chosen by `updateDigitalState()`:
`digitalState == HIGH ? "MAGNET DETECTED" : "NO MAGNET"`. -/
def digitalText (digitalState : Int) : String :=
  if digitalState = HIGH then "MAGNET DETECTED" else "NO MAGNET"

/-- Source: `updateDigitalState()`, reading the global `digitalState`. -/
def updateDigitalState (digitalState : Int) : List TftOp :=
  [ TftOp.setCursor 0 90,
    TftOp.print blankLine,
    TftOp.setCursor 0 90,
    TftOp.print (digitalText digitalState) ]

/-- Source: `updateAnalogValue()`, reading the global `analogValue`. -/
def updateAnalogValue (analogValue : Int) : List TftOp :=
  [ TftOp.setCursor 0 140,
    TftOp.print blankLine,
    TftOp.setCursor 0 140,
    TftOp.printInt analogValue ]

/-- Source: `setup()`: the calls made on the display, for the globals `s`
(`pinMode` does not touch the display or the globals). -/
def setup (s : State) : List TftOp :=
  [ TftOp.init,
    TftOp.setRotation 0,
    TftOp.fillScreen Colour.black,
    TftOp.setTextFont 2,
    TftOp.setTextColor Colour.white Colour.black ]
  ++ drawStaticElements
  ++ updateDigitalState s.digitalState
  ++ updateAnalogValue s.analogValue

/-- A call made by `loop()` to one of the two update functions, with the value
of the global variable that the function prints. -/
inductive Render where
  | digital (digitalState : Int)
  | analog (analogValue : Int)
  deriving DecidableEq, Repr

/-- The display calls behind one `Render`. -/
def Render.ops : Render → List TftOp
  | Render.digital v => updateDigitalState v
  | Render.analog v => updateAnalogValue v

/-- Whether a render is a call of `updateDigitalState()`. -/
def Render.isDigital : Render → Bool
  | Render.digital _ => true
  | Render.analog _ => false

/-- Whether a render is a call of `updateAnalogValue()`. -/
def Render.isAnalog : Render → Bool
  | Render.digital _ => false
  | Render.analog _ => true

/-! ## The loop body -/

/-- Source: `loop()`, lines 139-151: the debounce filter.
```
if (digitalReading != lastDigitalState) lastDebounceTime = millis();
if ((millis() - lastDebounceTime) > debounceInterval)
  if (digitalReading != digitalState) { digitalState = digitalReading; redrawDigital = true; }
lastDigitalState = digitalReading;
```
-/
def debounce (s : State) (digitalReading : Int) (now : Nat) : State :=
  let s1 : State :=
    if digitalReading ≠ s.lastDigitalState then { s with lastDebounceTime := now } else s
  let s2 : State :=
    if subUL now s1.lastDebounceTime > debounceInterval then
      if digitalReading ≠ s1.digitalState then
        { s1 with digitalState := digitalReading, redrawDigital := true }
      else s1
    else s1
  { s2 with lastDigitalState := digitalReading }

/-- Source: `loop()`, lines 154-157:
`if (redrawDigital) { updateDigitalState(); redrawDigital = false; }`. -/
def flushDigital (s : State) : State × List Render :=
  if s.redrawDigital then
    ({ s with redrawDigital := false }, [Render.digital s.digitalState])
  else (s, [])

/-- Source: `loop()`, lines 160-175: the analog sampling filter.
```
if (millis() - lastAnalogReadTime >= analogReadInterval) {
  int analogReading = analogRead(analogPin);
  if (analogReading <= 50) analogReading = 0;
  if (abs(analogReading - analogValue) > 10) { analogValue = analogReading; redrawAnalog = true; }
  lastAnalogReadTime = millis();
}
```
The difference and its `abs` are taken over the integers: that is the value of
the `int` computation whenever it does not overflow (`DiffFits`). -/
def sampleAnalog (s : State) (analogRead : Int) (now : Nat) : State :=
  if subUL now s.lastAnalogReadTime ≥ analogReadInterval then
    let analogReading : Int := if analogRead ≤ 50 then 0 else analogRead
    let s1 : State :=
      if |analogReading - s.analogValue| > 10 then
        { s with analogValue := analogReading, redrawAnalog := true }
      else s
    { s1 with lastAnalogReadTime := now }
  else s

/-- Source: `loop()`, lines 178-181:
`if (redrawAnalog) { updateAnalogValue(); redrawAnalog = false; }`. -/
def flushAnalog (s : State) : State × List Render :=
  if s.redrawAnalog then
    ({ s with redrawAnalog := false }, [Render.analog s.analogValue])
  else (s, [])

/-- The digital half of `loop()` (lines 136-157): debounce, then redraw. -/
def digitalPart (s : State) (digitalReading : Int) (now : Nat) : State × List Render :=
  flushDigital (debounce s digitalReading now)

/-- The analog half of `loop()` (lines 159-181): sample, then redraw. -/
def analogPart (s : State) (analogRead : Int) (now : Nat) : State × List Render :=
  flushAnalog (sampleAnalog s analogRead now)

/-- Source: `loop()`: one iteration (the final `delay(1)` changes no variable). -/
def loop (s : State) (i : Input) : State × List Render :=
  let d := digitalPart s i.digitalReading i.now
  let a := analogPart d.1 i.analogReading i.now
  (a.1, d.2 ++ a.2)

/-- Successive iterations of `loop()`: the final state and all renders issued. -/
def runLoop (s : State) : List Input → State × List Render
  | [] => (s, [])
  | i :: rest =>
    let r := loop s i
    let q := runLoop r.1 rest
    (q.1, r.2 ++ q.2)

/-! ## Derived notions used in the statements -/

/-- The condition under which the debounce filter accepts the reading `r` at
time `now`: the reading equals the previous one, the timer has run for more
than the debounce interval, and the reading differs from `digitalState`. -/
def Accepts (s : State) (r : Int) (now : Nat) : Prop :=
  r = s.lastDigitalState ∧ subUL now s.lastDebounceTime > debounceInterval ∧ r ≠ s.digitalState

instance (s : State) (r : Int) (now : Nat) : Decidable (Accepts s r now) := by
  unfold Accepts
  infer_instance

/-- The reading the analog filter works with: readings up to 50 are forced to 0. -/
def floored (r : Int) : Int := if r ≤ 50 then 0 else r

/-- The condition under which the analog filter takes a sample at time `now`. -/
def Due (s : State) (now : Nat) : Prop :=
  subUL now s.lastAnalogReadTime ≥ analogReadInterval

instance (s : State) (now : Nat) : Decidable (Due s now) := by
  unfold Due
  infer_instance

/-- The timestamps of the inputs never decrease. -/
def NonDecreasing (xs : List Input) : Prop :=
  xs.Pairwise (fun a b : Input => a.now ≤ b.now)

instance (xs : List Input) : Decidable (NonDecreasing xs) := by
  unfold NonDecreasing
  infer_instance

/-- Every timestamp is a value of `unsigned long`. -/
def InRange (xs : List Input) : Prop :=
  ∀ o ∈ xs, o.now < ULONG_RANGE

instance (xs : List Input) : Decidable (InRange xs) := by
  unfold InRange
  infer_instance

/-- Proof invariant of the debounce filter after the inputs `hist`: the timer
value is bounded by every bound of the timestamps seen, and every input seen
after the timer value has the last raw reading. -/
def DigInv (hist : List Input) (s : State) : Prop :=
  (∀ B, (∀ o ∈ hist, o.now ≤ B) → s.lastDebounceTime ≤ B)
    ∧ (∀ o ∈ hist, s.lastDebounceTime < o.now → o.digitalReading = s.lastDigitalState)

/-- The raw digital reading seen last: the reading of the last input, or `prev`
(the reading before the first input) when there is no input. -/
def lastReading (prev : Int) : List Input → Int
  | [] => prev
  | i :: rest => lastReading i.digitalReading rest

/-- The time of the most recent raw transition among the inputs, if there is
one.  An input is a raw transition when its digital reading differs from the
reading before it; the reading before the first input is `prev`. -/
def lastTransition (prev : Int) : List Input → Option Nat
  | [] => none
  | i :: rest =>
    match lastTransition i.digitalReading rest with
    | some t => some t
    | none => if i.digitalReading ≠ prev then some i.now else none

/-- Every input is made less than `debounceInterval` after the most recent raw
transition (itself included) of the inputs up to it, the reading before the
first input being that of the initial state. -/
def TransitionsClose (obs : List Input) : Prop :=
  ∀ p ∈ obs.inits, ∀ i ∈ p.getLast?, ∀ t ∈ lastTransition init.lastDigitalState p,
    i.now < t + debounceInterval

instance (obs : List Input) : Decidable (TransitionsClose obs) := by
  unfold TransitionsClose
  infer_instance

/-- Two states agree on the variables of the digital channel. -/
def DigitalAgree (s1 s2 : State) : Prop :=
  s1.digitalState = s2.digitalState ∧ s1.lastDigitalState = s2.lastDigitalState
    ∧ s1.lastDebounceTime = s2.lastDebounceTime ∧ s1.redrawDigital = s2.redrawDigital

/-- Two states agree on the variables of the analog channel. -/
def AnalogAgree (s1 s2 : State) : Prop :=
  s1.analogValue = s2.analogValue ∧ s1.lastAnalogReadTime = s2.lastAnalogReadTime
    ∧ s1.redrawAnalog = s2.redrawAnalog

/-- What the digital channel reads in a run: the digital readings and the times. -/
def digitalInputs (xs : List Input) : List (Int × Nat) :=
  xs.map (fun i => (i.digitalReading, i.now))

/-- What the analog channel reads in a run: the analog readings and the times. -/
def analogInputs (xs : List Input) : List (Int × Nat) :=
  xs.map (fun i => (i.analogReading, i.now))

/-- Largest value of the 32-bit `int` of the target. -/
def INT_MAX : Int := 2147483647

/-- Smallest value of the 32-bit `int` of the target. -/
def INT_MIN : Int := -2147483648

/-- The value is a value of `int`. -/
def IntFits (x : Int) : Prop := INT_MIN ≤ x ∧ x ≤ INT_MAX

instance (x : Int) : Decidable (IntFits x) := by
  unfold IntFits
  infer_instance

/-- The `int` arithmetic of line 169 does not overflow for the raw reading `r`
in state `s`: the reading and `analogValue` are values of `int`, and the
difference between the reading (forced to 0 when at most 50) and `analogValue`
has absolute value at most `INT_MAX`, so that both the subtraction and `abs`
give their integer value. -/
def DiffFits (s : State) (r : Int) : Prop :=
  IntFits r ∧ IntFits s.analogValue
    ∧ |(if r ≤ 50 then 0 else r) - s.analogValue| ≤ INT_MAX

instance (s : State) (r : Int) : Decidable (DiffFits s r) := by
  unfold DiffFits
  infer_instance

/-- The input of step `k` of the digital scenario: raw reading `HIGH` at steps
0 and 1 and `LOW` from step 2 on, at time `10 * k`, with analog reading `a k`. -/
def digitalScenario (a : Nat → Int) (k : Nat) : Input :=
  ⟨if k < 2 then HIGH else LOW, a k, 10 * k⟩

/-- The first `n` steps of the digital scenario, at times 0, 10, ..., `10 * (n - 1)`. -/
def digitalScenarioRun (a : Nat → Int) (n : Nat) : List Input :=
  (List.range n).map (digitalScenario a)

/-! ## Unsigned arithmetic -/

theorem subUL_self (a : Nat) : subUL a a = 0 := by
  unfold subUL ULONG_RANGE
  omega

theorem subUL_of_le {a b : Nat} (hba : b ≤ a) (ha : a < ULONG_RANGE) : subUL a b = a - b := by
  unfold subUL
  unfold ULONG_RANGE at *
  omega

/-! ## Field-by-field description of the two filters -/

theorem debounce_digitalState (s : State) (r : Int) (now : Nat) :
    (debounce s r now).digitalState =
      if r = s.lastDigitalState ∧ subUL now s.lastDebounceTime > debounceInterval
          ∧ r ≠ s.digitalState then r else s.digitalState := by
  unfold debounce
  by_cases h1 : r = s.lastDigitalState
  · subst h1
    by_cases h2 : subUL now s.lastDebounceTime > debounceInterval
    · by_cases h3 : s.lastDigitalState = s.digitalState <;> simp [h2, h3]
    · simp [h2]
  · simp [h1, subUL_self, debounceInterval]

theorem debounce_redrawDigital (s : State) (r : Int) (now : Nat) :
    (debounce s r now).redrawDigital =
      if r = s.lastDigitalState ∧ subUL now s.lastDebounceTime > debounceInterval
          ∧ r ≠ s.digitalState then true else s.redrawDigital := by
  unfold debounce
  by_cases h1 : r = s.lastDigitalState
  · subst h1
    by_cases h2 : subUL now s.lastDebounceTime > debounceInterval
    · by_cases h3 : s.lastDigitalState = s.digitalState <;> simp [h2, h3]
    · simp [h2]
  · simp [h1, subUL_self, debounceInterval]

theorem debounce_lastDebounceTime (s : State) (r : Int) (now : Nat) :
    (debounce s r now).lastDebounceTime =
      if r = s.lastDigitalState then s.lastDebounceTime else now := by
  unfold debounce
  by_cases h1 : r = s.lastDigitalState
  · subst h1
    by_cases h2 : subUL now s.lastDebounceTime > debounceInterval
    · by_cases h3 : s.lastDigitalState = s.digitalState <;> simp [h2, h3]
    · simp [h2]
  · simp [h1, subUL_self, debounceInterval]

theorem debounce_lastDigitalState (s : State) (r : Int) (now : Nat) :
    (debounce s r now).lastDigitalState = r := by
  unfold debounce
  rfl

theorem debounce_frame (s : State) (r : Int) (now : Nat) :
    (debounce s r now).analogValue = s.analogValue
      ∧ (debounce s r now).redrawAnalog = s.redrawAnalog
      ∧ (debounce s r now).lastAnalogReadTime = s.lastAnalogReadTime := by
  unfold debounce
  by_cases h1 : r = s.lastDigitalState
  · subst h1
    by_cases h2 : subUL now s.lastDebounceTime > debounceInterval
    · by_cases h3 : s.lastDigitalState = s.digitalState <;> simp [h2, h3]
    · simp [h2]
  · simp [h1, subUL_self, debounceInterval]

theorem sampleAnalog_analogValue (s : State) (r : Int) (now : Nat) :
    (sampleAnalog s r now).analogValue =
      if subUL now s.lastAnalogReadTime ≥ analogReadInterval
          ∧ |(if r ≤ 50 then 0 else r) - s.analogValue| > 10
      then (if r ≤ 50 then 0 else r) else s.analogValue := by
  unfold sampleAnalog
  by_cases h1 : subUL now s.lastAnalogReadTime ≥ analogReadInterval
  · by_cases h2 : |(if r ≤ 50 then 0 else r) - s.analogValue| > 10 <;> simp [h1, h2]
  · simp [h1]

theorem sampleAnalog_redrawAnalog (s : State) (r : Int) (now : Nat) :
    (sampleAnalog s r now).redrawAnalog =
      if subUL now s.lastAnalogReadTime ≥ analogReadInterval
          ∧ |(if r ≤ 50 then 0 else r) - s.analogValue| > 10
      then true else s.redrawAnalog := by
  unfold sampleAnalog
  by_cases h1 : subUL now s.lastAnalogReadTime ≥ analogReadInterval
  · by_cases h2 : |(if r ≤ 50 then 0 else r) - s.analogValue| > 10 <;> simp [h1, h2]
  · simp [h1]

theorem sampleAnalog_lastAnalogReadTime (s : State) (r : Int) (now : Nat) :
    (sampleAnalog s r now).lastAnalogReadTime =
      if subUL now s.lastAnalogReadTime ≥ analogReadInterval then now
      else s.lastAnalogReadTime := by
  unfold sampleAnalog
  by_cases h1 : subUL now s.lastAnalogReadTime ≥ analogReadInterval
  · by_cases h2 : |(if r ≤ 50 then 0 else r) - s.analogValue| > 10 <;> simp [h1, h2]
  · simp [h1]

theorem sampleAnalog_frame (s : State) (r : Int) (now : Nat) :
    (sampleAnalog s r now).digitalState = s.digitalState
      ∧ (sampleAnalog s r now).lastDigitalState = s.lastDigitalState
      ∧ (sampleAnalog s r now).redrawDigital = s.redrawDigital
      ∧ (sampleAnalog s r now).lastDebounceTime = s.lastDebounceTime := by
  unfold sampleAnalog
  by_cases h1 : subUL now s.lastAnalogReadTime ≥ analogReadInterval
  · by_cases h2 : |(if r ≤ 50 then 0 else r) - s.analogValue| > 10 <;> simp [h1, h2]
  · simp [h1]

/-! ## The redraw steps and one iteration -/

theorem flushDigital_fst (s : State) :
    (flushDigital s).1 = { s with redrawDigital := false } := by
  unfold flushDigital
  cases s with
  | mk a b c d e f g => cases d <;> simp

theorem flushDigital_snd (s : State) :
    (flushDigital s).2 = if s.redrawDigital then [Render.digital s.digitalState] else [] := by
  unfold flushDigital
  cases h : s.redrawDigital <;> simp

theorem flushAnalog_fst (s : State) :
    (flushAnalog s).1 = { s with redrawAnalog := false } := by
  unfold flushAnalog
  cases s with
  | mk a b c d e f g => cases e <;> simp

theorem flushAnalog_snd (s : State) :
    (flushAnalog s).2 = if s.redrawAnalog then [Render.analog s.analogValue] else [] := by
  unfold flushAnalog
  cases h : s.redrawAnalog <;> simp

theorem loop_digitalState (s : State) (i : Input) :
    (loop s i).1.digitalState =
      if Accepts s i.digitalReading i.now then i.digitalReading else s.digitalState := by
  simp only [loop, digitalPart, analogPart, flushAnalog_fst, flushDigital_fst,
    (sampleAnalog_frame _ _ _).1, debounce_digitalState, Accepts]

theorem loop_lastDigitalState (s : State) (i : Input) :
    (loop s i).1.lastDigitalState = i.digitalReading := by
  simp only [loop, digitalPart, analogPart, flushAnalog_fst, flushDigital_fst,
    (sampleAnalog_frame _ _ _).2.1, debounce_lastDigitalState]

theorem loop_lastDebounceTime (s : State) (i : Input) :
    (loop s i).1.lastDebounceTime =
      if i.digitalReading = s.lastDigitalState then s.lastDebounceTime else i.now := by
  simp only [loop, digitalPart, analogPart, flushAnalog_fst, flushDigital_fst,
    (sampleAnalog_frame _ _ _).2.2.2, debounce_lastDebounceTime]

theorem loop_redrawDigital (s : State) (i : Input) :
    (loop s i).1.redrawDigital = false := by
  simp only [loop, digitalPart, analogPart, flushAnalog_fst, flushDigital_fst,
    (sampleAnalog_frame _ _ _).2.2.1]

theorem loop_redrawAnalog (s : State) (i : Input) :
    (loop s i).1.redrawAnalog = false := by
  simp only [loop, digitalPart, analogPart, flushAnalog_fst, flushDigital_fst]

theorem loop_analogValue (s : State) (i : Input) :
    (loop s i).1.analogValue =
      if Due s i.now ∧ |floored i.analogReading - s.analogValue| > 10
      then floored i.analogReading else s.analogValue := by
  simp only [loop, digitalPart, analogPart, flushAnalog_fst, flushDigital_fst,
    sampleAnalog_analogValue, (debounce_frame _ _ _).1, (debounce_frame _ _ _).2.2, Due, floored]

theorem loop_lastAnalogReadTime (s : State) (i : Input) :
    (loop s i).1.lastAnalogReadTime =
      if Due s i.now then i.now else s.lastAnalogReadTime := by
  simp only [loop, digitalPart, analogPart, flushAnalog_fst, flushDigital_fst,
    sampleAnalog_lastAnalogReadTime, (debounce_frame _ _ _).2.2, Due]

theorem loop_renders (s : State) (i : Input) :
    (loop s i).2 =
      (if Accepts s i.digitalReading i.now ∨ s.redrawDigital = true
        then [Render.digital (loop s i).1.digitalState] else [])
      ++ (if (Due s i.now ∧ |floored i.analogReading - s.analogValue| > 10)
            ∨ s.redrawAnalog = true
        then [Render.analog (loop s i).1.analogValue] else []) := by
  rw [loop_digitalState, loop_analogValue]
  simp only [loop, digitalPart, analogPart, flushAnalog_snd, flushDigital_snd, flushDigital_fst,
    sampleAnalog_analogValue, sampleAnalog_redrawAnalog, debounce_redrawDigital,
    debounce_digitalState,
    (debounce_frame _ _ _).1, (debounce_frame _ _ _).2.1, (debounce_frame _ _ _).2.2,
    Due, floored, Accepts]
  congr 1
  · by_cases h : (i.digitalReading = s.lastDigitalState ∧
        subUL i.now s.lastDebounceTime > debounceInterval ∧ i.digitalReading ≠ s.digitalState)
    · simp [h]
    · cases hr : s.redrawDigital <;> simp [h]
  · by_cases h : (subUL i.now s.lastAnalogReadTime ≥ analogReadInterval ∧
        |(if i.analogReading ≤ 50 then 0 else i.analogReading) - s.analogValue| > 10)
    · simp [h]
    · cases hr : s.redrawAnalog <;> simp [h]

theorem runLoop_nil (s : State) : runLoop s [] = (s, []) := rfl

theorem runLoop_cons (s : State) (i : Input) (rest : List Input) :
    runLoop s (i :: rest)
      = ((runLoop (loop s i).1 rest).1, (loop s i).2 ++ (runLoop (loop s i).1 rest).2) := rfl

theorem runLoop_append (s : State) (xs ys : List Input) :
    runLoop s (xs ++ ys)
      = ((runLoop (runLoop s xs).1 ys).1, (runLoop s xs).2 ++ (runLoop (runLoop s xs).1 ys).2) := by
  induction xs generalizing s with
  | nil => simp [runLoop_nil]
  | cons x xs ih => simp [runLoop_cons, ih, List.append_assoc]

theorem runLoop_snoc_fst (s : State) (xs : List Input) (i : Input) :
    (runLoop s (xs ++ [i])).1 = (loop (runLoop s xs).1 i).1 := by
  rw [runLoop_append]
  simp [runLoop_cons, runLoop_nil]

/-! ## Runs from the initial state -/

theorem run_flags (pre : List Input) :
    (runLoop init pre).1.redrawDigital = false ∧ (runLoop init pre).1.redrawAnalog = false := by
  induction pre using List.reverseRecOn with
  | nil => exact ⟨rfl, rfl⟩
  | append_singleton xs i _ =>
    rw [runLoop_snoc_fst]
    exact ⟨loop_redrawDigital _ _, loop_redrawAnalog _ _⟩

theorem digInv_init : DigInv [] init := by
  constructor
  · intro B _
    exact Nat.zero_le B
  · intro o ho
    simp at ho

theorem digInv_step (hist : List Input) (s : State) (i : Input) (hinv : DigInv hist s)
    (hle : ∀ o ∈ hist, o.now ≤ i.now) : DigInv (hist ++ [i]) (loop s i).1 := by
  obtain ⟨hb, hr⟩ := hinv
  by_cases h : i.digitalReading = s.lastDigitalState
  · constructor
    · intro B hB
      rw [loop_lastDebounceTime, if_pos h]
      exact hb B (fun o ho => hB o (List.mem_append_left _ ho))
    · intro o ho hlt
      rw [loop_lastDebounceTime, if_pos h] at hlt
      rw [loop_lastDigitalState]
      rcases List.mem_append.mp ho with ho | ho
      · rw [hr o ho hlt, h]
      · rw [List.mem_singleton.mp ho]
  · constructor
    · intro B hB
      rw [loop_lastDebounceTime, if_neg h]
      exact hB i (List.mem_append_right _ (List.mem_singleton.mpr rfl))
    · intro o ho hlt
      rw [loop_lastDebounceTime, if_neg h] at hlt
      rw [loop_lastDigitalState]
      rcases List.mem_append.mp ho with ho | ho
      · exact absurd (hle o ho) (Nat.not_le.mpr hlt)
      · rw [List.mem_singleton.mp ho]

theorem digInv_run (hist : List Input) (hmono : NonDecreasing hist) :
    DigInv hist (runLoop init hist).1 := by
  induction hist using List.reverseRecOn with
  | nil => exact digInv_init
  | append_singleton xs i ih =>
    unfold NonDecreasing at hmono
    rw [List.pairwise_append] at hmono
    rw [runLoop_snoc_fst]
    refine digInv_step xs _ i (ih hmono.1) ?_
    intro o ho
    exact hmono.2.2 o ho i (List.mem_singleton.mpr rfl)

/-- C1 (debounce soundness).  In a run of `loop()` from the initial state over
inputs with non-decreasing `unsigned long` timestamps, whenever the iteration
on input `i` redraws the digital value as `v`: `v` differs from the value
published before, `v` is the value published after, `v` is the raw reading of
that iteration, and every input of the run so far whose timestamp is at least
`i.now - 50` has raw reading `v`. -/
theorem debounce_soundness (pre : List Input) (i : Input) (v : Int)
    (hmono : NonDecreasing (pre ++ [i])) (hrange : InRange (pre ++ [i]))
    (hemit : Render.digital v ∈ (loop (runLoop init pre).1 i).2) :
    v ≠ (runLoop init pre).1.digitalState
      ∧ (loop (runLoop init pre).1 i).1.digitalState = v
      ∧ i.digitalReading = v
      ∧ ∀ o ∈ pre ++ [i], i.now ≤ o.now + debounceInterval → o.digitalReading = v := by
  have hmono2 := hmono
  unfold NonDecreasing at hmono2
  rw [List.pairwise_append] at hmono2
  obtain ⟨hb, hr⟩ := digInv_run pre hmono2.1
  have hle : ∀ o ∈ pre, o.now ≤ i.now :=
    fun o ho => hmono2.2.2 o ho i (List.mem_singleton.mpr rfl)
  have hlast : (runLoop init pre).1.lastDebounceTime ≤ i.now := hb i.now hle
  have hnow : i.now < ULONG_RANGE := hrange i (List.mem_append_right _ (List.mem_singleton.mpr rfl))
  rw [loop_renders, (run_flags pre).1, (run_flags pre).2] at hemit
  simp only [Bool.false_eq_true, or_false, List.mem_append] at hemit
  rcases hemit with hd | ha
  · by_cases hacc : Accepts (runLoop init pre).1 i.digitalReading i.now
    · rw [if_pos hacc, List.mem_singleton] at hd
      have hv : (loop (runLoop init pre).1 i).1.digitalState = v := by
        injection hd with h
        exact h.symm
      have hvr : i.digitalReading = v := by
        rw [loop_digitalState, if_pos hacc] at hv
        exact hv
      obtain ⟨h1, h2, h3⟩ := hacc
      rw [subUL_of_le hlast hnow] at h2
      refine ⟨?_, hv, hvr, ?_⟩
      · rw [← hvr]
        exact h3
      · intro o ho hwin
        rcases List.mem_append.mp ho with ho | ho
        · rw [← hvr, h1]
          apply hr o ho
          unfold debounceInterval at h2 hwin
          omega
        · rw [List.mem_singleton.mp ho]
          exact hvr
    · rw [if_neg hacc] at hd
      simp at hd
  · split_ifs at ha <;> simp at ha

theorem debounce_soundness_witness :
    NonDecreasing ([⟨LOW, 0, 20⟩, ⟨LOW, 0, 60⟩] ++ [⟨LOW, 0, 80⟩])
      ∧ InRange ([⟨LOW, 0, 20⟩, ⟨LOW, 0, 60⟩] ++ [⟨LOW, 0, 80⟩])
      ∧ Render.digital LOW ∈ (loop (runLoop init [⟨LOW, 0, 20⟩, ⟨LOW, 0, 60⟩]).1 ⟨LOW, 0, 80⟩).2
      ∧ LOW ≠ (runLoop init [⟨LOW, 0, 20⟩, ⟨LOW, 0, 60⟩]).1.digitalState
      ∧ (loop (runLoop init [⟨LOW, 0, 20⟩, ⟨LOW, 0, 60⟩]).1 ⟨LOW, 0, 80⟩).1.digitalState = LOW :=
  ⟨by decide, by decide, by decide,
    (debounce_soundness [⟨LOW, 0, 20⟩, ⟨LOW, 0, 60⟩] ⟨LOW, 0, 80⟩ LOW
      (by decide) (by decide) (by decide)).1,
    (debounce_soundness [⟨LOW, 0, 20⟩, ⟨LOW, 0, 60⟩] ⟨LOW, 0, 80⟩ LOW
      (by decide) (by decide) (by decide)).2.1⟩

/-! ## Single steps of the debounce filter -/

theorem digitalPart_digitalState (s : State) (r : Int) (now : Nat) :
    (digitalPart s r now).1.digitalState = if Accepts s r now then r else s.digitalState := by
  simp only [digitalPart, flushDigital_fst, debounce_digitalState, Accepts]

theorem digitalPart_renders (s : State) (r : Int) (now : Nat) :
    (digitalPart s r now).2 =
      if Accepts s r now ∨ s.redrawDigital = true
        then [Render.digital (digitalPart s r now).1.digitalState] else [] := by
  rw [digitalPart_digitalState]
  simp only [digitalPart, flushDigital_snd, debounce_redrawDigital, debounce_digitalState, Accepts]
  by_cases h : (r = s.lastDigitalState ∧
      subUL now s.lastDebounceTime > debounceInterval ∧ r ≠ s.digitalState)
  · simp [h]
  · cases hr : s.redrawDigital <;> simp [h]

/-- C2 as stated fails: after the raw reading went `LOW` at time 0, the reading
`LOW` at time 50 equals the last raw reading, differs from the published value
and comes 50 time units after the last raw transition, yet nothing is
published. -/
theorem debounce_at_fifty_not_published :
    LOW = (runLoop init [⟨LOW, 0, 0⟩]).1.lastDigitalState
      ∧ LOW ≠ (runLoop init [⟨LOW, 0, 0⟩]).1.digitalState
      ∧ 50 - (runLoop init [⟨LOW, 0, 0⟩]).1.lastDebounceTime ≥ 50
      ∧ subUL 50 (runLoop init [⟨LOW, 0, 0⟩]).1.lastDebounceTime ≥ 50
      ∧ (digitalPart (runLoop init [⟨LOW, 0, 0⟩]).1 LOW 50).1.digitalState = HIGH
      ∧ (digitalPart (runLoop init [⟨LOW, 0, 0⟩]).1 LOW 50).2 = [] := by
  decide

/-- C2 (debounce eventual consistency), amended: for every state and every
observation `(v, now)` such that `v` equals the last raw reading, `v` differs
from the published value and `now - lastDebounceTime` (as an `unsigned long`)
is strictly greater than 50, the debounce step publishes `v`: the published
value becomes `v` and exactly one redraw, of `v`, is issued. -/
theorem debounce_publishes (s : State) (v : Int) (now : Nat)
    (hraw : v = s.lastDigitalState) (hnew : v ≠ s.digitalState)
    (helapsed : subUL now s.lastDebounceTime > debounceInterval) :
    (digitalPart s v now).1.digitalState = v
      ∧ (digitalPart s v now).2 = [Render.digital v] := by
  have hacc : Accepts s v now := ⟨hraw, helapsed, hnew⟩
  have h1 : (digitalPart s v now).1.digitalState = v := by
    rw [digitalPart_digitalState, if_pos hacc]
  refine ⟨h1, ?_⟩
  rw [digitalPart_renders, if_pos (Or.inl hacc), h1]

theorem debounce_publishes_witness :
    (digitalPart (runLoop init [⟨LOW, 0, 0⟩]).1 LOW 51).1.digitalState = LOW
      ∧ (digitalPart (runLoop init [⟨LOW, 0, 0⟩]).1 LOW 51).2 = [Render.digital LOW] :=
  debounce_publishes (runLoop init [⟨LOW, 0, 0⟩]).1 LOW 51 (by decide) (by decide) (by decide)

/-! ## A reading held constant -/

theorem loop_digital_renders (s : State) (i : Input) :
    (loop s i).2.filter Render.isDigital =
      if Accepts s i.digitalReading i.now ∨ s.redrawDigital = true
        then [Render.digital (loop s i).1.digitalState] else [] := by
  rw [loop_renders, List.filter_append]
  by_cases h1 : Accepts s i.digitalReading i.now ∨ s.redrawDigital = true
  · by_cases h2 : (Due s i.now ∧ |floored i.analogReading - s.analogValue| > 10)
        ∨ s.redrawAnalog = true
    · simp [h1, h2, Render.isDigital]
    · simp [h1, h2, Render.isDigital]
  · by_cases h2 : (Due s i.now ∧ |floored i.analogReading - s.analogValue| > 10)
        ∨ s.redrawAnalog = true
    · simp [h1, h2, Render.isDigital]
    · simp [h1, h2, Render.isDigital]

theorem run_constant (v : Int) (rest : List Input) (hconst : ∀ o ∈ rest, o.digitalReading = v)
    (s : State) (hs : s.digitalState = v) (hflag : s.redrawDigital = false) :
    (runLoop s rest).1.digitalState = v
      ∧ (runLoop s rest).2.filter Render.isDigital = [] := by
  induction rest generalizing s with
  | nil => exact ⟨hs, rfl⟩
  | cons i rest ih =>
    have hi : i.digitalReading = v := hconst i (List.mem_cons_self _ _)
    have hnot : ¬ Accepts s i.digitalReading i.now := by
      intro hacc
      exact hacc.2.2 (hi.trans hs.symm)
    have hstate : (loop s i).1.digitalState = v := by
      rw [loop_digitalState, if_neg hnot]
      exact hs
    have hnone : (loop s i).2.filter Render.isDigital = [] := by
      rw [loop_digital_renders, if_neg]
      rintro (h | h)
      · exact hnot h
      · rw [hflag] at h
        exact Bool.false_ne_true h
    obtain ⟨h1, h2⟩ := ih (fun o ho => hconst o (List.mem_cons_of_mem _ ho)) (loop s i).1 hstate
      (loop_redrawDigital s i)
    rw [runLoop_cons]
    refine ⟨h1, ?_⟩
    simp only [List.filter_append, hnone, h2, List.append_nil]

/-- C3 (single emission).  For every state, once an iteration has redrawn the
digital value as `v`, all later iterations whose raw reading is `v`, at any
timestamps and with any analog readings, issue no digital redraw and leave the
published value equal to `v`; the run as a whole redraws the digital value
exactly once. -/
theorem single_emission (s : State) (i0 : Input) (v : Int) (rest : List Input)
    (hpub : Render.digital v ∈ (loop s i0).2)
    (hconst : ∀ o ∈ rest, o.digitalReading = v) :
    (runLoop (loop s i0).1 rest).1.digitalState = v
      ∧ (runLoop (loop s i0).1 rest).2.filter Render.isDigital = []
      ∧ (runLoop s (i0 :: rest)).1.digitalState = v
      ∧ (runLoop s (i0 :: rest)).2.filter Render.isDigital = [Render.digital v] := by
  have hmem : Render.digital v ∈ (loop s i0).2.filter Render.isDigital :=
    List.mem_filter.mpr ⟨hpub, rfl⟩
  rw [loop_digital_renders] at hmem
  have hfirst : (loop s i0).2.filter Render.isDigital = [Render.digital v]
      ∧ (loop s i0).1.digitalState = v := by
    by_cases h : Accepts s i0.digitalReading i0.now ∨ s.redrawDigital = true
    · rw [if_pos h, List.mem_singleton] at hmem
      injection hmem with hv
      rw [loop_digital_renders, if_pos h, hv]
      exact ⟨rfl, rfl⟩
    · rw [if_neg h] at hmem
      simp at hmem
  obtain ⟨h1, h2⟩ := run_constant v rest hconst (loop s i0).1 hfirst.2 (loop_redrawDigital s i0)
  refine ⟨h1, h2, ?_, ?_⟩
  · rw [runLoop_cons]
    exact h1
  · rw [runLoop_cons]
    simp only [List.filter_append, hfirst.1, h2, List.append_nil]

theorem single_emission_witness :
    (runLoop (loop (runLoop init [⟨LOW, 0, 0⟩]).1 ⟨LOW, 0, 51⟩).1
        [⟨LOW, 0, 52⟩, ⟨LOW, 0, 200⟩]).1.digitalState = LOW
      ∧ (runLoop (loop (runLoop init [⟨LOW, 0, 0⟩]).1 ⟨LOW, 0, 51⟩).1
        [⟨LOW, 0, 52⟩, ⟨LOW, 0, 200⟩]).2.filter Render.isDigital = []
      ∧ (runLoop (runLoop init [⟨LOW, 0, 0⟩]).1
        (⟨LOW, 0, 51⟩ :: [⟨LOW, 0, 52⟩, ⟨LOW, 0, 200⟩])).1.digitalState = LOW
      ∧ (runLoop (runLoop init [⟨LOW, 0, 0⟩]).1
        (⟨LOW, 0, 51⟩ :: [⟨LOW, 0, 52⟩, ⟨LOW, 0, 200⟩])).2.filter Render.isDigital
          = [Render.digital LOW] :=
  single_emission (runLoop init [⟨LOW, 0, 0⟩]).1 ⟨LOW, 0, 51⟩ LOW [⟨LOW, 0, 52⟩, ⟨LOW, 0, 200⟩]
    (by decide) (by decide)

/-! ## Transitions spaced closer than the debounce interval -/

theorem runLoop_snoc_snd (s : State) (xs : List Input) (i : Input) :
    (runLoop s (xs ++ [i])).2 = (runLoop s xs).2 ++ (loop (runLoop s xs).1 i).2 := by
  rw [runLoop_append]
  simp [runLoop_cons, runLoop_nil]

theorem lastReading_snoc (prev : Int) (xs : List Input) (i : Input) :
    lastReading prev (xs ++ [i]) = i.digitalReading := by
  induction xs generalizing prev with
  | nil => rfl
  | cons x xs ih => exact ih x.digitalReading

theorem lastTransition_cons (prev : Int) (x : Input) (xs : List Input) :
    lastTransition prev (x :: xs) =
      match lastTransition x.digitalReading xs with
      | some t => some t
      | none => if x.digitalReading ≠ prev then some x.now else none := rfl

theorem lastTransition_snoc (prev : Int) (xs : List Input) (i : Input) :
    lastTransition prev (xs ++ [i]) =
      if i.digitalReading ≠ lastReading prev xs then some i.now else lastTransition prev xs := by
  induction xs generalizing prev with
  | nil => simp [lastTransition, lastReading]
  | cons x xs ih =>
    have hx := ih x.digitalReading
    rw [List.cons_append, lastTransition_cons, hx, lastTransition_cons]
    by_cases h : i.digitalReading = lastReading x.digitalReading xs
    · simp [h, lastReading]
    · simp [h, lastReading]

theorem run_lastDigitalState (s : State) (hist : List Input) :
    (runLoop s hist).1.lastDigitalState = lastReading s.lastDigitalState hist := by
  induction hist generalizing s with
  | nil => rfl
  | cons i rest ih =>
    rw [runLoop_cons]
    simp only [lastReading]
    rw [ih, loop_lastDigitalState]

theorem nonDecreasing_of_append {xs ys : List Input} (h : NonDecreasing (xs ++ ys)) :
    NonDecreasing xs := by
  unfold NonDecreasing at *
  exact (List.pairwise_append.mp h).1

theorem inRange_of_append {xs ys : List Input} (h : InRange (xs ++ ys)) : InRange xs :=
  fun o ho => h o (List.mem_append_left _ ho)

theorem transitionsClose_of_append {xs ys : List Input} (h : TransitionsClose (xs ++ ys)) :
    TransitionsClose xs := by
  intro p hp
  apply h p
  rw [List.mem_inits] at *
  exact hp.trans (List.prefix_append xs ys)

theorem stability_run (hist : List Input) (hmono : NonDecreasing hist) (hrange : InRange hist)
    (hclose : TransitionsClose hist) :
    (runLoop init hist).1.digitalState = HIGH
      ∧ (runLoop init hist).2.filter Render.isDigital = []
      ∧ (∀ t ∈ lastTransition HIGH hist, (runLoop init hist).1.lastDebounceTime = t)
      ∧ (lastTransition HIGH hist = none → lastReading HIGH hist = HIGH) := by
  induction hist using List.reverseRecOn with
  | nil =>
    refine ⟨rfl, rfl, ?_, fun _ => rfl⟩
    intro t ht
    simp [lastTransition] at ht
  | append_singleton xs i ih =>
    obtain ⟨ihs, ihr, iht, ihn⟩ :=
      ih (nonDecreasing_of_append hmono) (inRange_of_append hrange) (transitionsClose_of_append hclose)
    have hlastd : (runLoop init xs).1.lastDigitalState = lastReading HIGH xs :=
      run_lastDigitalState init xs
    have hle : ∀ o ∈ xs, o.now ≤ i.now := by
      intro o ho
      unfold NonDecreasing at hmono
      exact (List.pairwise_append.mp hmono).2.2 o ho i (List.mem_singleton.mpr rfl)
    have hldt : (runLoop init xs).1.lastDebounceTime ≤ i.now :=
      (digInv_run xs (nonDecreasing_of_append hmono)).1 i.now hle
    have hnow : i.now < ULONG_RANGE :=
      hrange i (List.mem_append_right _ (List.mem_singleton.mpr rfl))
    have hhere : ∀ t ∈ lastTransition HIGH (xs ++ [i]), i.now < t + debounceInterval := by
      intro t ht
      refine hclose (xs ++ [i]) ?_ i ?_ t ht
      · rw [List.mem_inits]
      · simp
    have hnot : ¬ Accepts (runLoop init xs).1 i.digitalReading i.now := by
      rintro ⟨h1, h2, h3⟩
      rw [hlastd] at h1
      rw [lastTransition_snoc, if_neg (not_not.mpr h1)] at hhere
      cases hlt : lastTransition HIGH xs with
      | none =>
        apply h3
        rw [ihs, h1]
        exact ihn hlt
      | some t =>
        have ht : (runLoop init xs).1.lastDebounceTime = t := iht t (by rw [hlt]; rfl)
        have hwin := hhere t (by rw [hlt]; rfl)
        rw [subUL_of_le hldt hnow, ht] at h2
        unfold debounceInterval at h2 hwin
        omega
    refine ⟨?_, ?_, ?_, ?_⟩
    · rw [runLoop_snoc_fst, loop_digitalState, if_neg hnot]
      exact ihs
    · rw [runLoop_snoc_snd, List.filter_append, ihr, loop_digital_renders, if_neg]
      · rfl
      · rintro (h | h)
        · exact hnot h
        · rw [(run_flags xs).1] at h
          exact Bool.false_ne_true h
    · intro t ht
      rw [runLoop_snoc_fst, loop_lastDebounceTime, hlastd]
      rw [lastTransition_snoc] at ht
      by_cases h : i.digitalReading = lastReading HIGH xs
      · rw [if_pos h]
        rw [if_neg (not_not.mpr h)] at ht
        exact iht t ht
      · rw [if_neg h]
        rw [if_pos h] at ht
        simpa using ht
    · intro hn
      rw [lastTransition_snoc] at hn
      rw [lastReading_snoc]
      by_cases h : i.digitalReading = lastReading HIGH xs
      · rw [if_neg (not_not.mpr h)] at hn
        rw [h]
        exact ihn hn
      · rw [if_pos h] at hn
        simp at hn

/-- C4 (debounce stability).  In a run of `loop()` from the initial state over
inputs with non-decreasing `unsigned long` timestamps in which every input is
made less than 50 time units after the most recent raw transition, the
published digital value equals its initial value after every prefix of the run
and the run issues no digital redraw. -/
theorem debounce_stability (obs : List Input) (hmono : NonDecreasing obs)
    (hrange : InRange obs) (hclose : TransitionsClose obs) :
    (∀ pre ∈ obs.inits, (runLoop init pre).1.digitalState = init.digitalState)
      ∧ (runLoop init obs).2.filter Render.isDigital = [] := by
  constructor
  · intro pre hpre
    rw [List.mem_inits] at hpre
    obtain ⟨post, rfl⟩ := hpre
    exact (stability_run pre (nonDecreasing_of_append hmono) (inRange_of_append hrange)
      (transitionsClose_of_append hclose)).1
  · exact (stability_run obs hmono hrange hclose).2.1

theorem debounce_stability_witness :
    NonDecreasing [⟨HIGH, 0, 0⟩, ⟨LOW, 0, 10⟩, ⟨LOW, 0, 50⟩, ⟨HIGH, 0, 60⟩, ⟨LOW, 0, 100⟩,
        ⟨LOW, 0, 149⟩]
      ∧ TransitionsClose [⟨HIGH, 0, 0⟩, ⟨LOW, 0, 10⟩, ⟨LOW, 0, 50⟩, ⟨HIGH, 0, 60⟩,
        ⟨LOW, 0, 100⟩, ⟨LOW, 0, 149⟩]
      ∧ (runLoop init [⟨HIGH, 0, 0⟩, ⟨LOW, 0, 10⟩, ⟨LOW, 0, 50⟩, ⟨HIGH, 0, 60⟩, ⟨LOW, 0, 100⟩,
        ⟨LOW, 0, 149⟩]).2.filter Render.isDigital = [] :=
  ⟨by decide, by decide,
    (debounce_stability [⟨HIGH, 0, 0⟩, ⟨LOW, 0, 10⟩, ⟨LOW, 0, 50⟩, ⟨HIGH, 0, 60⟩, ⟨LOW, 0, 100⟩,
      ⟨LOW, 0, 149⟩] (by decide) (by decide) (by decide)).2⟩

/-! ## Single ticks of the analog filter -/

theorem analogPart_analogValue (s : State) (r : Int) (now : Nat) :
    (analogPart s r now).1.analogValue =
      if Due s now ∧ |floored r - s.analogValue| > 10 then floored r else s.analogValue := by
  simp only [analogPart, flushAnalog_fst, sampleAnalog_analogValue, Due, floored]

theorem analogPart_lastAnalogReadTime (s : State) (r : Int) (now : Nat) :
    (analogPart s r now).1.lastAnalogReadTime =
      if Due s now then now else s.lastAnalogReadTime := by
  simp only [analogPart, flushAnalog_fst, sampleAnalog_lastAnalogReadTime, Due]

theorem analogPart_renders (s : State) (r : Int) (now : Nat) :
    (analogPart s r now).2 =
      if (Due s now ∧ |floored r - s.analogValue| > 10) ∨ s.redrawAnalog = true
        then [Render.analog (analogPart s r now).1.analogValue] else [] := by
  rw [analogPart_analogValue]
  simp only [analogPart, flushAnalog_snd, sampleAnalog_redrawAnalog, sampleAnalog_analogValue,
    Due, floored]
  by_cases h : (subUL now s.lastAnalogReadTime ≥ analogReadInterval ∧
      |(if r ≤ 50 then 0 else r) - s.analogValue| > 10)
  · simp [h]
  · cases hr : s.redrawAnalog <;> simp [h]

theorem sampleAnalog_not_due (s : State) (r : Int) (now : Nat) (h : ¬ Due s now) :
    sampleAnalog s r now = s := by
  unfold Due at h
  unfold sampleAnalog
  rw [if_neg h]

theorem flushAnalog_idle (s : State) (h : s.redrawAnalog = false) : flushAnalog s = (s, []) := by
  unfold flushAnalog
  simp [h]

/-- C5 (analog tick characterisation).  For every state at an iteration
boundary (no analog redraw pending) with published value `p`, and every tick
with raw reading `r` at a time `now` that is due, such that the `int`
arithmetic of line 169 does not overflow (`DiffFits`: `r` and `p` are values of
`int` and `|c - p| ≤ INT_MAX`, as in every state reached from the initial
state), let `c` be 0 if `r ≤ 50` and `r` otherwise.  The tick issues a redraw
iff `|c - p| > 10`; when it does, the redraw and the new published value are
both `c`; when it does not, the published value stays `p`; in both cases
`lastAnalogReadTime` becomes `now`. -/
theorem analog_tick_characterisation (s : State) (r : Int) (now : Nat)
    (hdue : subUL now s.lastAnalogReadTime ≥ analogReadInterval)
    (hidle : s.redrawAnalog = false) (_hfits : DiffFits s r) :
    ((analogPart s r now).2 ≠ [] ↔ |(if r ≤ 50 then 0 else r) - s.analogValue| > 10)
      ∧ (|(if r ≤ 50 then 0 else r) - s.analogValue| > 10 →
          (analogPart s r now).2 = [Render.analog (if r ≤ 50 then 0 else r)]
            ∧ (analogPart s r now).1.analogValue = (if r ≤ 50 then 0 else r))
      ∧ (¬ |(if r ≤ 50 then 0 else r) - s.analogValue| > 10 →
          (analogPart s r now).2 = []
            ∧ (analogPart s r now).1.analogValue = s.analogValue)
      ∧ (analogPart s r now).1.lastAnalogReadTime = now := by
  have hd : Due s now := hdue
  have hv := analogPart_analogValue s r now
  have hr := analogPart_renders s r now
  rw [hv] at hr
  simp only [hd, true_and, hidle, Bool.false_eq_true, or_false] at hv hr
  change (analogPart s r now).1.analogValue =
    if |(if r ≤ 50 then 0 else r) - s.analogValue| > 10 then (if r ≤ 50 then 0 else r)
    else s.analogValue at hv
  change (analogPart s r now).2 =
    if |(if r ≤ 50 then 0 else r) - s.analogValue| > 10
    then [Render.analog (if |(if r ≤ 50 then 0 else r) - s.analogValue| > 10
      then (if r ≤ 50 then 0 else r) else s.analogValue)]
    else [] at hr
  refine ⟨?_, ?_, ?_, ?_⟩
  · by_cases h : |(if r ≤ 50 then 0 else r) - s.analogValue| > 10
    · rw [hr, if_pos h]
      simp [h]
    · rw [hr, if_neg h]
      simp [h]
  · intro h
    rw [hr, hv, if_pos h, if_pos h]
    exact ⟨rfl, rfl⟩
  · intro h
    rw [hr, hv, if_neg h, if_neg h]
    exact ⟨rfl, rfl⟩
  · rw [analogPart_lastAnalogReadTime, if_pos hd]

theorem analog_tick_characterisation_witness :
    DiffFits init 60
      ∧ (analogPart init 60 100).2 = [Render.analog 60]
      ∧ (analogPart init 60 100).1.analogValue = 60
      ∧ (analogPart init 60 100).1.lastAnalogReadTime = 100 :=
  ⟨by decide,
    ((analog_tick_characterisation init 60 100 (by decide) (by decide) (by decide)).2.1
      (by decide)).1,
    ((analog_tick_characterisation init 60 100 (by decide) (by decide) (by decide)).2.1
      (by decide)).2,
    (analog_tick_characterisation init 60 100 (by decide) (by decide) (by decide)).2.2.2⟩

/-! ## Analog hysteresis and clamping -/

theorem loop_analog_renders (s : State) (i : Input) :
    (loop s i).2.filter Render.isAnalog =
      if (Due s i.now ∧ |floored i.analogReading - s.analogValue| > 10) ∨ s.redrawAnalog = true
        then [Render.analog (loop s i).1.analogValue] else [] := by
  rw [loop_renders, List.filter_append]
  by_cases h1 : Accepts s i.digitalReading i.now ∨ s.redrawDigital = true
  · by_cases h2 : (Due s i.now ∧ |floored i.analogReading - s.analogValue| > 10)
        ∨ s.redrawAnalog = true
    · simp [h1, h2, Render.isAnalog]
    · simp [h1, h2, Render.isAnalog]
  · by_cases h2 : (Due s i.now ∧ |floored i.analogReading - s.analogValue| > 10)
        ∨ s.redrawAnalog = true
    · simp [h1, h2, Render.isAnalog]
    · simp [h1, h2, Render.isAnalog]

theorem run_within_margin (p : Int) (rest : List Input)
    (hnear : ∀ o ∈ rest, |floored o.analogReading - p| ≤ 10)
    (s : State) (hs : s.analogValue = p) (hflag : s.redrawAnalog = false) :
    (runLoop s rest).1.analogValue = p
      ∧ (runLoop s rest).2.filter Render.isAnalog = [] := by
  induction rest generalizing s with
  | nil => exact ⟨hs, rfl⟩
  | cons i rest ih =>
    have hi : ¬ |floored i.analogReading - s.analogValue| > 10 := by
      rw [hs]
      exact not_lt.mpr (hnear i (List.mem_cons_self _ _))
    have hstate : (loop s i).1.analogValue = p := by
      rw [loop_analogValue, if_neg (fun h => hi h.2)]
      exact hs
    have hnone : (loop s i).2.filter Render.isAnalog = [] := by
      rw [loop_analog_renders, if_neg]
      rintro (h | h)
      · exact hi h.2
      · rw [hflag] at h
        exact Bool.false_ne_true h
    obtain ⟨h1, h2⟩ := ih (fun o ho => hnear o (List.mem_cons_of_mem _ ho)) (loop s i).1 hstate
      (loop_redrawAnalog s i)
    rw [runLoop_cons]
    refine ⟨h1, ?_⟩
    simp only [List.filter_append, hnone, h2, List.append_nil]

/-- C6 as stated fails: after the run that publishes 55, which is reachable
from the initial state, the due tick with raw reading 48 is within 10 of the
published value, yet it is forced to 0, publishes 0 and issues a redraw. -/
theorem raw_within_margin_still_publishes :
    (runLoop init [⟨HIGH, 55, 100⟩]).1.analogValue = 55
      ∧ Due (runLoop init [⟨HIGH, 55, 100⟩]).1 200
      ∧ |(48 : Int) - (runLoop init [⟨HIGH, 55, 100⟩]).1.analogValue| ≤ 10
      ∧ (analogPart (runLoop init [⟨HIGH, 55, 100⟩]).1 48 200).2 = [Render.analog 0]
      ∧ (analogPart (runLoop init [⟨HIGH, 55, 100⟩]).1 48 200).1.analogValue = 0 := by
  decide

/-- C6 (analog hysteresis), amended: the margin is measured on the reading after
the noise floor has been applied.  For every state reachable from the initial
state, with published value `p`: a due tick whose reading, forced to 0 when it
is at most 50, is within 10 of `p` issues no redraw and leaves the published
value equal to `p`; and a sequence of iterations whose readings, so forced, all
stay within 10 of `p` leaves the published value equal to `p` after every one
of them and issues no analog redraw. -/
theorem analog_hysteresis (pre rest : List Input) (r : Int) (now : Nat)
    (_hdue : Due (runLoop init pre).1 now)
    (hr : |floored r - (runLoop init pre).1.analogValue| ≤ 10)
    (hnear : ∀ o ∈ rest, |floored o.analogReading - (runLoop init pre).1.analogValue| ≤ 10) :
    (analogPart (runLoop init pre).1 r now).2 = []
      ∧ (analogPart (runLoop init pre).1 r now).1.analogValue = (runLoop init pre).1.analogValue
      ∧ (∀ mid ∈ rest.inits, (runLoop (runLoop init pre).1 mid).1.analogValue
          = (runLoop init pre).1.analogValue)
      ∧ (runLoop (runLoop init pre).1 rest).2.filter Render.isAnalog = [] := by
  have hflag := (run_flags pre).2
  have hnot : ¬ |floored r - (runLoop init pre).1.analogValue| > 10 := not_lt.mpr hr
  refine ⟨?_, ?_, ?_, ?_⟩
  · rw [analogPart_renders, if_neg]
    rintro (h | h)
    · exact hnot h.2
    · rw [hflag] at h
      exact Bool.false_ne_true h
  · rw [analogPart_analogValue, if_neg (fun h => hnot h.2)]
  · intro mid hmid
    rw [List.mem_inits] at hmid
    obtain ⟨post, rfl⟩ := hmid
    exact (run_within_margin _ mid (fun o ho => hnear o (List.mem_append_left _ ho)) _ rfl
      hflag).1
  · exact (run_within_margin _ rest hnear _ rfl hflag).2

theorem analog_hysteresis_witness :
    (analogPart (runLoop init [⟨HIGH, 55, 100⟩]).1 60 200).2 = []
      ∧ (analogPart (runLoop init [⟨HIGH, 55, 100⟩]).1 60 200).1.analogValue
          = (runLoop init [⟨HIGH, 55, 100⟩]).1.analogValue
      ∧ (runLoop (runLoop init [⟨HIGH, 55, 100⟩]).1
          [⟨HIGH, 60, 200⟩, ⟨HIGH, 51, 300⟩, ⟨LOW, 65, 400⟩]).2.filter Render.isAnalog = [] :=
  ⟨(analog_hysteresis [⟨HIGH, 55, 100⟩] [⟨HIGH, 60, 200⟩, ⟨HIGH, 51, 300⟩, ⟨LOW, 65, 400⟩]
      60 200 (by decide) (by decide) (by decide)).1,
    (analog_hysteresis [⟨HIGH, 55, 100⟩] [⟨HIGH, 60, 200⟩, ⟨HIGH, 51, 300⟩, ⟨LOW, 65, 400⟩]
      60 200 (by decide) (by decide) (by decide)).2.1,
    (analog_hysteresis [⟨HIGH, 55, 100⟩] [⟨HIGH, 60, 200⟩, ⟨HIGH, 51, 300⟩, ⟨LOW, 65, 400⟩]
      60 200 (by decide) (by decide) (by decide)).2.2.2⟩

/-- C7 (analog clamping).  For every state and time, a tick with a raw reading
`r ≤ 50` yields the same state and the same redraws as the tick with raw
reading 0; and a due tick, at an iteration boundary, with a raw reading
`r > 50` for which the `int` arithmetic of line 169 does not overflow
(`DiffFits`: `r` and the published value `p` are values of `int` and
`|r - p| ≤ INT_MAX`, as in every state reached from the initial state)
compares `r` itself with `p` and publishes `r` itself: it publishes and redraws
`r` when `|r - p| > 10` and nothing otherwise. -/
theorem analog_clamping (s : State) (r : Int) (now : Nat) :
    (r ≤ 50 → analogPart s r now = analogPart s 0 now)
      ∧ (50 < r → Due s now → s.redrawAnalog = false → DiffFits s r →
          (analogPart s r now).1.analogValue
              = (if |r - s.analogValue| > 10 then r else s.analogValue)
            ∧ (analogPart s r now).2
              = (if |r - s.analogValue| > 10 then [Render.analog r] else [])) := by
  constructor
  · intro hr
    have h : sampleAnalog s r now = sampleAnalog s 0 now := by
      unfold sampleAnalog
      simp [hr]
    unfold analogPart
    rw [h]
  · intro hr hdue hidle _
    have hfl : floored r = r := by
      unfold floored
      rw [if_neg (not_le.mpr hr)]
    have hv := analogPart_analogValue s r now
    have hrn := analogPart_renders s r now
    rw [hfl] at hv hrn
    simp only [hdue, true_and, hidle, Bool.false_eq_true, or_false] at hv hrn
    refine ⟨hv, ?_⟩
    rw [hrn, hv]
    by_cases h : |r - s.analogValue| > 10
    · simp [h]
    · simp [h]

theorem analog_clamping_witness :
    analogPart (runLoop init [⟨HIGH, 60, 100⟩]).1 50 200
        = analogPart (runLoop init [⟨HIGH, 60, 100⟩]).1 0 200
      ∧ DiffFits (runLoop init [⟨HIGH, 60, 100⟩]).1 51
      ∧ (analogPart (runLoop init [⟨HIGH, 60, 100⟩]).1 51 200).1.analogValue
        = (if |(51 : Int) - (runLoop init [⟨HIGH, 60, 100⟩]).1.analogValue| > 10 then 51
            else (runLoop init [⟨HIGH, 60, 100⟩]).1.analogValue) :=
  ⟨(analog_clamping (runLoop init [⟨HIGH, 60, 100⟩]).1 50 200).1 (by decide),
    by decide,
    ((analog_clamping (runLoop init [⟨HIGH, 60, 100⟩]).1 51 200).2
      (by decide) (by decide) (by decide) (by decide)).1⟩

/-! ## Sampling cadence -/

theorem run_lastAnalogReadTime_ge (L : Nat) (xs : List Input) (hxs : ∀ o ∈ xs, L ≤ o.now)
    (s : State) (hs : L ≤ s.lastAnalogReadTime) :
    L ≤ (runLoop s xs).1.lastAnalogReadTime := by
  induction xs generalizing s with
  | nil => exact hs
  | cons i rest ih =>
    rw [runLoop_cons]
    apply ih (fun o ho => hxs o (List.mem_cons_of_mem _ ho))
    rw [loop_lastAnalogReadTime]
    split_ifs
    · exact hxs i (List.mem_cons_self _ _)
    · exact hs

theorem run_lastAnalogReadTime_le (B : Nat) (xs : List Input) (hxs : ∀ o ∈ xs, o.now ≤ B)
    (s : State) (hs : s.lastAnalogReadTime ≤ B) :
    (runLoop s xs).1.lastAnalogReadTime ≤ B := by
  induction xs generalizing s with
  | nil => exact hs
  | cons i rest ih =>
    rw [runLoop_cons]
    apply ih (fun o ho => hxs o (List.mem_cons_of_mem _ ho))
    rw [loop_lastAnalogReadTime]
    split_ifs
    · exact hxs i (List.mem_cons_self _ _)
    · exact hs

/-- C8 (sampling cadence).  A tick at a time `now` with
`now - lastAnalogReadTime < 100` changes no variable, whatever the raw reading,
and at an iteration boundary issues no redraw.  Consequently, in every run of
`loop()` from the initial state over inputs with non-decreasing
`unsigned long` timestamps, the times of any two iterations whose tick takes
a sample (guard of line 160 true) differ by at least 100. -/
theorem sampling_cadence :
    (∀ (s : State) (r : Int) (now : Nat),
        subUL now s.lastAnalogReadTime < analogReadInterval →
          sampleAnalog s r now = s
            ∧ (s.redrawAnalog = false → analogPart s r now = (s, [])))
      ∧ (∀ (pre mid : List Input) (i1 i2 : Input),
          NonDecreasing (pre ++ i1 :: (mid ++ [i2])) →
          InRange (pre ++ i1 :: (mid ++ [i2])) →
          Due (runLoop init pre).1 i1.now →
          Due (runLoop init (pre ++ i1 :: mid)).1 i2.now →
          i1.now + analogReadInterval ≤ i2.now) := by
  constructor
  · intro s r now hlt
    have hnd : ¬ Due s now := not_le.mpr hlt
    refine ⟨sampleAnalog_not_due s r now hnd, ?_⟩
    intro hidle
    unfold analogPart
    rw [sampleAnalog_not_due s r now hnd]
    exact flushAnalog_idle s hidle
  · intro pre mid i1 i2 hmono hrange hd1 hd2
    unfold NonDecreasing at hmono
    rw [List.pairwise_append, List.pairwise_cons, List.pairwise_append] at hmono
    obtain ⟨_, ⟨h1rest, _, _, hmid2⟩, hpre⟩ := hmono
    have hi2 : i2.now < ULONG_RANGE := hrange i2 (by simp)
    have h12 : i1.now ≤ i2.now := h1rest i2 (by simp)
    have hstate : (runLoop init (pre ++ i1 :: mid)).1
        = (runLoop (loop (runLoop init pre).1 i1).1 mid).1 := by
      rw [runLoop_append, runLoop_cons]
    have hfirst : (loop (runLoop init pre).1 i1).1.lastAnalogReadTime = i1.now := by
      rw [loop_lastAnalogReadTime, if_pos hd1]
    have hge : i1.now ≤ (runLoop init (pre ++ i1 :: mid)).1.lastAnalogReadTime := by
      rw [hstate]
      apply run_lastAnalogReadTime_ge
      · intro o ho
        exact h1rest o (List.mem_append_left _ ho)
      · rw [hfirst]
    have hle : (runLoop init (pre ++ i1 :: mid)).1.lastAnalogReadTime ≤ i2.now := by
      rw [hstate]
      apply run_lastAnalogReadTime_le
      · intro o ho
        exact hmid2 o ho i2 (List.mem_singleton.mpr rfl)
      · rw [hfirst]
        exact h12
    unfold Due at hd2
    rw [subUL_of_le hle hi2] at hd2
    unfold analogReadInterval at *
    omega

theorem sampling_cadence_witness :
    sampleAnalog (runLoop init [⟨HIGH, 60, 100⟩]).1 4095 199 = (runLoop init [⟨HIGH, 60, 100⟩]).1
      ∧ analogPart (runLoop init [⟨HIGH, 60, 100⟩]).1 4095 199
          = ((runLoop init [⟨HIGH, 60, 100⟩]).1, [])
      ∧ (100 : Nat) + analogReadInterval ≤ 230 :=
  ⟨(sampling_cadence.1 (runLoop init [⟨HIGH, 60, 100⟩]).1 4095 199 (by decide)).1,
    (sampling_cadence.1 (runLoop init [⟨HIGH, 60, 100⟩]).1 4095 199 (by decide)).2 (by decide),
    sampling_cadence.2 [⟨HIGH, 0, 50⟩] [⟨HIGH, 70, 150⟩, ⟨HIGH, 80, 199⟩]
      ⟨HIGH, 60, 100⟩ ⟨HIGH, 90, 230⟩ (by decide) (by decide) (by decide) (by decide)⟩

/-! ## Redraws -/

/-- C9 (render only on change).  For every state at an iteration boundary (no
redraw pending) and every input, the redraws issued by one iteration of
`loop()` are: one digital redraw, of the newly published digital value, exactly
when the published digital value after the iteration differs from the one
before it, followed by one analog redraw, of the newly published analog value,
exactly when the published analog value after the iteration differs from the
one before it; and nothing else. -/
theorem render_only_on_change (s : State) (i : Input)
    (hd : s.redrawDigital = false) (ha : s.redrawAnalog = false) :
    (loop s i).2 =
        (if (loop s i).1.digitalState ≠ s.digitalState
          then [Render.digital (loop s i).1.digitalState] else [])
        ++ (if (loop s i).1.analogValue ≠ s.analogValue
          then [Render.analog (loop s i).1.analogValue] else [])
      ∧ ((∃ v, Render.digital v ∈ (loop s i).2) ↔ (loop s i).1.digitalState ≠ s.digitalState)
      ∧ ((∃ v, Render.analog v ∈ (loop s i).2) ↔ (loop s i).1.analogValue ≠ s.analogValue) := by
  have hdig : Accepts s i.digitalReading i.now ↔ (loop s i).1.digitalState ≠ s.digitalState := by
    rw [loop_digitalState]
    constructor
    · intro h
      rw [if_pos h]
      exact h.2.2
    · intro h
      by_contra hn
      rw [if_neg hn] at h
      exact h rfl
  have hana : (Due s i.now ∧ |floored i.analogReading - s.analogValue| > 10)
      ↔ (loop s i).1.analogValue ≠ s.analogValue := by
    rw [loop_analogValue]
    constructor
    · intro h
      rw [if_pos h]
      intro heq
      have h2 := h.2
      rw [heq, sub_self, abs_zero] at h2
      omega
    · intro h
      by_contra hn
      rw [if_neg hn] at h
      exact h rfl
  have hout : (loop s i).2 =
      (if (loop s i).1.digitalState ≠ s.digitalState
        then [Render.digital (loop s i).1.digitalState] else [])
      ++ (if (loop s i).1.analogValue ≠ s.analogValue
        then [Render.analog (loop s i).1.analogValue] else []) := by
    conv_lhs => rw [loop_renders]
    simp only [hd, ha, Bool.false_eq_true, or_false, hdig, hana]
  refine ⟨hout, ?_, ?_⟩
  · rw [hout]
    by_cases h1 : (loop s i).1.digitalState ≠ s.digitalState
    · simp [h1]
    · by_cases h2 : (loop s i).1.analogValue ≠ s.analogValue
      · simp [h1, h2]
      · simp [h1, h2]
  · rw [hout]
    by_cases h2 : (loop s i).1.analogValue ≠ s.analogValue
    · simp [h2]
    · by_cases h1 : (loop s i).1.digitalState ≠ s.digitalState
      · simp [h1, h2]
      · simp [h1, h2]

theorem render_only_on_change_witness :
    (loop (runLoop init [⟨LOW, 0, 0⟩]).1 ⟨LOW, 70, 100⟩).2
      = [Render.digital LOW, Render.analog 70]
      ∧ (loop (runLoop init [⟨LOW, 0, 0⟩]).1 ⟨LOW, 70, 100⟩).2 =
        (if (loop (runLoop init [⟨LOW, 0, 0⟩]).1 ⟨LOW, 70, 100⟩).1.digitalState
              ≠ (runLoop init [⟨LOW, 0, 0⟩]).1.digitalState
          then [Render.digital (loop (runLoop init [⟨LOW, 0, 0⟩]).1 ⟨LOW, 70, 100⟩).1.digitalState]
          else [])
        ++ (if (loop (runLoop init [⟨LOW, 0, 0⟩]).1 ⟨LOW, 70, 100⟩).1.analogValue
              ≠ (runLoop init [⟨LOW, 0, 0⟩]).1.analogValue
          then [Render.analog (loop (runLoop init [⟨LOW, 0, 0⟩]).1 ⟨LOW, 70, 100⟩).1.analogValue]
          else []) :=
  ⟨by decide,
    (render_only_on_change (runLoop init [⟨LOW, 0, 0⟩]).1 ⟨LOW, 70, 100⟩
      (by decide) (by decide)).1⟩

/-! ## The text of the digital value -/

/-- C10 (digital label polarity): what the code does.  The digital channel
starts at `HIGH`, the level the module outputs when no magnet is detected, but
`updateDigitalState()` prints "MAGNET DETECTED" for `HIGH` and "NO MAGNET" for
`LOW`, so the render made by `setup()` prints "MAGNET DETECTED" and not
"NO MAGNET". -/
theorem digital_label_inverted :
    init.digitalState = HIGH
      ∧ digitalText HIGH = "MAGNET DETECTED"
      ∧ digitalText LOW = "NO MAGNET"
      ∧ updateDigitalState init.digitalState
          = [TftOp.setCursor 0 90, TftOp.print blankLine, TftOp.setCursor 0 90,
              TftOp.print "MAGNET DETECTED"]
      ∧ TftOp.print "MAGNET DETECTED" ∈ setup init
      ∧ TftOp.print "NO MAGNET" ∉ setup init := by
  decide

/-! ## Independence of the two channels -/

theorem loop_digital_agree (s1 s2 : State) (i1 i2 : Input) (h : DigitalAgree s1 s2)
    (hr : i1.digitalReading = i2.digitalReading) (hn : i1.now = i2.now) :
    DigitalAgree (loop s1 i1).1 (loop s2 i2).1
      ∧ (loop s1 i1).2.filter Render.isDigital = (loop s2 i2).2.filter Render.isDigital := by
  obtain ⟨h1, h2, h3, h4⟩ := h
  simp only [DigitalAgree, loop_digital_renders, loop_digitalState, loop_lastDigitalState,
    loop_lastDebounceTime, loop_redrawDigital, Accepts, h1, h2, h3, h4, hr, hn, and_self]

theorem loop_analog_agree (s1 s2 : State) (i1 i2 : Input) (h : AnalogAgree s1 s2)
    (hr : i1.analogReading = i2.analogReading) (hn : i1.now = i2.now) :
    AnalogAgree (loop s1 i1).1 (loop s2 i2).1
      ∧ (loop s1 i1).2.filter Render.isAnalog = (loop s2 i2).2.filter Render.isAnalog := by
  obtain ⟨h1, h2, h3⟩ := h
  simp only [AnalogAgree, loop_analog_renders, loop_analogValue, loop_lastAnalogReadTime,
    loop_redrawAnalog, Due, h1, h2, h3, hr, hn, and_self]

theorem run_digital_agree (xs ys : List Input) (hxy : digitalInputs xs = digitalInputs ys)
    (s1 s2 : State) (h : DigitalAgree s1 s2) :
    DigitalAgree (runLoop s1 xs).1 (runLoop s2 ys).1
      ∧ (runLoop s1 xs).2.filter Render.isDigital = (runLoop s2 ys).2.filter Render.isDigital := by
  induction xs generalizing ys s1 s2 with
  | nil =>
    cases ys with
    | nil => exact ⟨h, rfl⟩
    | cons y ys => simp [digitalInputs] at hxy
  | cons x xs ih =>
    cases ys with
    | nil => simp [digitalInputs] at hxy
    | cons y ys =>
      simp only [digitalInputs, List.map_cons, List.cons.injEq, Prod.mk.injEq] at hxy
      obtain ⟨⟨hr, hn⟩, hrest⟩ := hxy
      obtain ⟨hs, hf⟩ := loop_digital_agree s1 s2 x y h hr hn
      obtain ⟨hs2, hf2⟩ := ih ys hrest (loop s1 x).1 (loop s2 y).1 hs
      rw [runLoop_cons, runLoop_cons]
      refine ⟨hs2, ?_⟩
      simp only [List.filter_append, hf, hf2]

theorem run_analog_agree (xs ys : List Input) (hxy : analogInputs xs = analogInputs ys)
    (s1 s2 : State) (h : AnalogAgree s1 s2) :
    AnalogAgree (runLoop s1 xs).1 (runLoop s2 ys).1
      ∧ (runLoop s1 xs).2.filter Render.isAnalog = (runLoop s2 ys).2.filter Render.isAnalog := by
  induction xs generalizing ys s1 s2 with
  | nil =>
    cases ys with
    | nil => exact ⟨h, rfl⟩
    | cons y ys => simp [analogInputs] at hxy
  | cons x xs ih =>
    cases ys with
    | nil => simp [analogInputs] at hxy
    | cons y ys =>
      simp only [analogInputs, List.map_cons, List.cons.injEq, Prod.mk.injEq] at hxy
      obtain ⟨⟨hr, hn⟩, hrest⟩ := hxy
      obtain ⟨hs, hf⟩ := loop_analog_agree s1 s2 x y h hr hn
      obtain ⟨hs2, hf2⟩ := ih ys hrest (loop s1 x).1 (loop s2 y).1 hs
      rw [runLoop_cons, runLoop_cons]
      refine ⟨hs2, ?_⟩
      simp only [List.filter_append, hf, hf2]

/-! ## Frame properties of the two halves -/

theorem channel_frame_digitalPart (s : State) (r : Int) (now : Nat) :
    (digitalPart s r now).1.analogValue = s.analogValue
      ∧ (digitalPart s r now).1.lastAnalogReadTime = s.lastAnalogReadTime
      ∧ (digitalPart s r now).1.redrawAnalog = s.redrawAnalog := by
  simp only [digitalPart, flushDigital_fst, debounce_frame, and_self]

theorem channel_frame_analogPart (s : State) (a : Int) (now : Nat) :
    (analogPart s a now).1.lastDigitalState = s.lastDigitalState
      ∧ (analogPart s a now).1.digitalState = s.digitalState
      ∧ (analogPart s a now).1.lastDebounceTime = s.lastDebounceTime
      ∧ (analogPart s a now).1.redrawDigital = s.redrawDigital := by
  simp only [analogPart, flushAnalog_fst, sampleAnalog_frame, and_self]

/-- C14 (channel independence).  In one iteration the digital half leaves the
analog variables (`analogValue`, `lastAnalogReadTime`, `redrawAnalog`) unchanged
and the analog half leaves the digital variables (`lastDigitalState`,
`digitalState`, `lastDebounceTime`, `redrawDigital`) unchanged.  Hence two runs
from the same state that agree on the digital readings and the timestamps,
whatever their analog readings, issue the same sequence of digital redraws and
end with the same digital variables; and two runs that agree on the analog
readings and the timestamps, whatever their digital readings, issue the same
sequence of analog redraws and end with the same analog variables. -/
theorem channel_independence :
    (∀ (s : State) (r : Int) (now : Nat),
        (digitalPart s r now).1.analogValue = s.analogValue
          ∧ (digitalPart s r now).1.lastAnalogReadTime = s.lastAnalogReadTime
          ∧ (digitalPart s r now).1.redrawAnalog = s.redrawAnalog)
      ∧ (∀ (s : State) (a : Int) (now : Nat),
        (analogPart s a now).1.lastDigitalState = s.lastDigitalState
          ∧ (analogPart s a now).1.digitalState = s.digitalState
          ∧ (analogPart s a now).1.lastDebounceTime = s.lastDebounceTime
          ∧ (analogPart s a now).1.redrawDigital = s.redrawDigital)
      ∧ (∀ (s : State) (xs ys : List Input), digitalInputs xs = digitalInputs ys →
        (runLoop s xs).2.filter Render.isDigital = (runLoop s ys).2.filter Render.isDigital
          ∧ DigitalAgree (runLoop s xs).1 (runLoop s ys).1)
      ∧ (∀ (s : State) (xs ys : List Input), analogInputs xs = analogInputs ys →
        (runLoop s xs).2.filter Render.isAnalog = (runLoop s ys).2.filter Render.isAnalog
          ∧ AnalogAgree (runLoop s xs).1 (runLoop s ys).1) := by
  refine ⟨?_, ?_, ?_, ?_⟩
  · exact channel_frame_digitalPart
  · exact channel_frame_analogPart
  · intro s xs ys hxy
    have h := run_digital_agree xs ys hxy s s ⟨rfl, rfl, rfl, rfl⟩
    exact ⟨h.2, h.1⟩
  · intro s xs ys hxy
    have h := run_analog_agree xs ys hxy s s ⟨rfl, rfl, rfl⟩
    exact ⟨h.2, h.1⟩

theorem channel_independence_witness :
    (runLoop init [⟨LOW, 0, 0⟩, ⟨LOW, 700, 100⟩, ⟨HIGH, 5, 200⟩]).2.filter Render.isDigital
        = (runLoop init [⟨LOW, 4095, 0⟩, ⟨LOW, 60, 100⟩, ⟨HIGH, 60, 200⟩]).2.filter
            Render.isDigital
      ∧ (runLoop init [⟨LOW, 60, 0⟩, ⟨LOW, 700, 100⟩, ⟨HIGH, 5, 200⟩]).2.filter Render.isAnalog
        = (runLoop init [⟨HIGH, 60, 0⟩, ⟨HIGH, 700, 100⟩, ⟨HIGH, 5, 200⟩]).2.filter
            Render.isAnalog :=
  ⟨(channel_independence.2.2.1 init [⟨LOW, 0, 0⟩, ⟨LOW, 700, 100⟩, ⟨HIGH, 5, 200⟩]
      [⟨LOW, 4095, 0⟩, ⟨LOW, 60, 100⟩, ⟨HIGH, 60, 200⟩] (by decide)).1,
    (channel_independence.2.2.2 init [⟨LOW, 60, 0⟩, ⟨LOW, 700, 100⟩, ⟨HIGH, 5, 200⟩]
      [⟨HIGH, 60, 0⟩, ⟨HIGH, 700, 100⟩, ⟨HIGH, 5, 200⟩] (by decide)).1⟩

/-! ## Order of the two halves within an iteration -/

theorem digitalPart_renders_digital (s : State) (r : Int) (now : Nat) :
    (digitalPart s r now).2.filter Render.isDigital = (digitalPart s r now).2
      ∧ (digitalPart s r now).2.filter Render.isAnalog = [] := by
  unfold digitalPart
  rw [flushDigital_snd]
  split_ifs <;> simp [Render.isDigital, Render.isAnalog]

theorem analogPart_renders_analog (s : State) (a : Int) (now : Nat) :
    (analogPart s a now).2.filter Render.isAnalog = (analogPart s a now).2
      ∧ (analogPart s a now).2.filter Render.isDigital = [] := by
  unfold analogPart
  rw [flushAnalog_snd]
  split_ifs <;> simp [Render.isDigital, Render.isAnalog]

theorem no_digital_after_analog (D A : List Render)
    (hD : D.filter Render.isDigital = D) (hA : A.filter Render.isDigital = [])
    (l1 l2 : List Render) (v : Int) (h : D ++ A = l1 ++ Render.analog v :: l2) :
    l2.filter Render.isDigital = [] := by
  induction D generalizing l1 with
  | nil =>
    rw [List.nil_append] at h
    rw [h, List.filter_append, List.filter_cons] at hA
    simp only [Render.isDigital, Bool.false_eq_true, if_false, List.append_eq_nil] at hA
    exact hA.2
  | cons d D ih =>
    have hd : d.isDigital = true := by
      have hmem : d ∈ (d :: D).filter Render.isDigital := by
        rw [hD]
        exact List.mem_cons_self _ _
      exact (List.mem_filter.mp hmem).2
    have hD2 : D.filter Render.isDigital = D := by
      rw [List.filter_cons, if_pos hd] at hD
      exact List.cons_injective hD
    cases l1 with
    | nil =>
      simp only [List.cons_append, List.nil_append, List.cons.injEq] at h
      rw [h.1] at hd
      simp [Render.isDigital] at hd
    | cons z l1 =>
      simp only [List.cons_append, List.cons.injEq] at h
      exact ih hD2 l1 h.2

/-- C15 (ordering within an iteration).  For every state and input, the redraws
of one iteration of `loop()` are its digital redraws followed by its analog
redraws: the digital redraws are those of the debounce half, the analog
redraws those of the analog half, and no analog redraw precedes a digital one.
The analog half starts from the state left by the debounce half of the same
iteration, in which `lastDigitalState`, `digitalState` and `lastDebounceTime`
already have their values of the end of the iteration. -/
theorem iteration_ordering (s : State) (i : Input) :
    (loop s i).2 = (loop s i).2.filter Render.isDigital ++ (loop s i).2.filter Render.isAnalog
      ∧ (loop s i).2.filter Render.isDigital = (digitalPart s i.digitalReading i.now).2
      ∧ (loop s i).2.filter Render.isAnalog
          = (analogPart (digitalPart s i.digitalReading i.now).1 i.analogReading i.now).2
      ∧ (∀ (l1 l2 : List Render) (v : Int), (loop s i).2 = l1 ++ Render.analog v :: l2 →
          ∀ w, Render.digital w ∉ l2)
      ∧ (loop s i).1
          = (analogPart (digitalPart s i.digitalReading i.now).1 i.analogReading i.now).1
      ∧ (digitalPart s i.digitalReading i.now).1.lastDigitalState = i.digitalReading
      ∧ (digitalPart s i.digitalReading i.now).1.lastDigitalState = (loop s i).1.lastDigitalState
      ∧ (digitalPart s i.digitalReading i.now).1.digitalState = (loop s i).1.digitalState
      ∧ (digitalPart s i.digitalReading i.now).1.lastDebounceTime
          = (loop s i).1.lastDebounceTime := by
  have hd := digitalPart_renders_digital s i.digitalReading i.now
  have ha := analogPart_renders_analog (digitalPart s i.digitalReading i.now).1
    i.analogReading i.now
  have hout : (loop s i).2 = (digitalPart s i.digitalReading i.now).2
      ++ (analogPart (digitalPart s i.digitalReading i.now).1 i.analogReading i.now).2 := rfl
  have hfd : (loop s i).2.filter Render.isDigital = (digitalPart s i.digitalReading i.now).2 := by
    rw [hout, List.filter_append, hd.1, ha.2, List.append_nil]
  have hfa : (loop s i).2.filter Render.isAnalog
      = (analogPart (digitalPart s i.digitalReading i.now).1 i.analogReading i.now).2 := by
    rw [hout, List.filter_append, hd.2, ha.1, List.nil_append]
  have hframe := channel_frame_analogPart (digitalPart s i.digitalReading i.now).1
    i.analogReading i.now
  refine ⟨?_, hfd, hfa, ?_, rfl, ?_, ?_, ?_, ?_⟩
  · rw [hfd, hfa]
    exact hout
  · intro l1 l2 v hsplit w hw
    rw [hout] at hsplit
    have hA := no_digital_after_analog (digitalPart s i.digitalReading i.now).2
      (analogPart (digitalPart s i.digitalReading i.now).1 i.analogReading i.now).2
      hd.1 ha.2 l1 l2 v hsplit
    have hmem : Render.digital w ∈ l2.filter Render.isDigital := List.mem_filter.mpr ⟨hw, rfl⟩
    rw [hA] at hmem
    simp at hmem
  · simp only [digitalPart, flushDigital_fst, debounce_lastDigitalState]
  · rw [show (loop s i).1
      = (analogPart (digitalPart s i.digitalReading i.now).1 i.analogReading i.now).1 from rfl]
    exact hframe.1.symm
  · rw [show (loop s i).1
      = (analogPart (digitalPart s i.digitalReading i.now).1 i.analogReading i.now).1 from rfl]
    exact hframe.2.1.symm
  · rw [show (loop s i).1
      = (analogPart (digitalPart s i.digitalReading i.now).1 i.analogReading i.now).1 from rfl]
    exact hframe.2.2.1.symm

theorem iteration_ordering_witness :
    (loop (runLoop init [⟨LOW, 0, 0⟩]).1 ⟨LOW, 70, 100⟩).2
        = [Render.digital LOW, Render.analog 70]
      ∧ ∀ w, Render.digital w ∉ ([] : List Render) :=
  ⟨by decide,
    (iteration_ordering (runLoop init [⟨LOW, 0, 0⟩]).1 ⟨LOW, 70, 100⟩).2.2.2.1
      [Render.digital LOW] [] 70 (by decide)⟩

/-! ## Range of the published analog value -/

theorem floored_range (r : Int) : floored r = 0 ∨ 50 < floored r := by
  unfold floored
  by_cases h : r ≤ 50
  · left
    rw [if_pos h]
  · right
    rw [if_neg h]
    exact not_le.mp h

theorem loop_analogValue_range (s : State) (i : Input)
    (hs : s.analogValue = 0 ∨ 50 < s.analogValue) :
    (loop s i).1.analogValue = 0 ∨ 50 < (loop s i).1.analogValue := by
  rw [loop_analogValue]
  split_ifs
  · exact floored_range i.analogReading
  · exact hs

theorem loop_analog_render_value (s : State) (i : Input) (v : Int)
    (hv : Render.analog v ∈ (loop s i).2) : v = (loop s i).1.analogValue := by
  have hmem : Render.analog v ∈ (loop s i).2.filter Render.isAnalog :=
    List.mem_filter.mpr ⟨hv, rfl⟩
  rw [loop_analog_renders] at hmem
  split_ifs at hmem
  · rw [List.mem_singleton] at hmem
    injection hmem
  · simp at hmem

theorem run_analog_range (xs : List Input) (s : State)
    (hs : s.analogValue = 0 ∨ 50 < s.analogValue) :
    ((runLoop s xs).1.analogValue = 0 ∨ 50 < (runLoop s xs).1.analogValue)
      ∧ ∀ v, Render.analog v ∈ (runLoop s xs).2 → v = 0 ∨ 50 < v := by
  induction xs generalizing s with
  | nil =>
    refine ⟨hs, ?_⟩
    intro v hv
    simp [runLoop_nil] at hv
  | cons i rest ih =>
    have hstep := loop_analogValue_range s i hs
    obtain ⟨h1, h2⟩ := ih (loop s i).1 hstep
    rw [runLoop_cons]
    refine ⟨h1, ?_⟩
    intro v hv
    rcases List.mem_append.mp hv with hv | hv
    · rw [loop_analog_render_value s i v hv]
      exact hstep
    · exact h2 v hv

theorem run_analogValue_le (xs : List Input) (hxs : ∀ o ∈ xs, o.analogReading ≤ INT_MAX)
    (s : State) (hs : s.analogValue ≤ INT_MAX) :
    (runLoop s xs).1.analogValue ≤ INT_MAX := by
  induction xs generalizing s with
  | nil => exact hs
  | cons i rest ih =>
    rw [runLoop_cons]
    apply ih (fun o ho => hxs o (List.mem_cons_of_mem _ ho))
    rw [loop_analogValue]
    split_ifs
    · have hi := hxs i (List.mem_cons_self _ _)
      unfold floored
      unfold INT_MAX at *
      split_ifs <;> omega
    · exact hs

theorem reachable_diffFits (xs : List Input) (hxs : ∀ o ∈ xs, IntFits o.analogReading)
    (r : Int) (hr : IntFits r) : DiffFits (runLoop init xs).1 r := by
  have hrange := (run_analog_range xs init (Or.inl rfl)).1
  have hle := run_analogValue_le xs (fun o ho => (hxs o ho).2) init (by decide)
  obtain ⟨hr1, hr2⟩ := hr
  unfold DiffFits IntFits
  unfold INT_MAX INT_MIN at *
  refine ⟨⟨hr1, hr2⟩, ⟨by omega, hle⟩, ?_⟩
  rw [abs_le]
  split_ifs <;> constructor <;> omega

/-- C16 (published analog range).  In every state reached from the initial
state by any sequence of iterations of `loop()`, with arbitrary integer raw
readings and arbitrary timestamps, `analogValue` is 0 or greater than 50, and
so is every value of an analog redraw issued on the way: no value in 1..50
and no negative value is published or redrawn. -/
theorem published_analog_range (xs : List Input) :
    ((runLoop init xs).1.analogValue = 0 ∨ 50 < (runLoop init xs).1.analogValue)
      ∧ (∀ v, Render.analog v ∈ (runLoop init xs).2 → v = 0 ∨ 50 < v)
      ∧ (∀ v, v < 0 ∨ (1 ≤ v ∧ v ≤ 50) →
          (runLoop init xs).1.analogValue ≠ v ∧ Render.analog v ∉ (runLoop init xs).2) := by
  obtain ⟨h1, h2⟩ := run_analog_range xs init (Or.inl rfl)
  refine ⟨h1, h2, ?_⟩
  intro v hv
  constructor
  · intro heq
    rw [heq] at h1
    omega
  · intro hmem
    have := h2 v hmem
    omega

theorem published_analog_range_witness :
    Render.analog 60 ∈ (runLoop init [⟨HIGH, 45, 100⟩, ⟨HIGH, 60, 200⟩, ⟨HIGH, 5, 300⟩]).2
      ∧ ((60 : Int) = 0 ∨ 50 < (60 : Int))
      ∧ (runLoop init [⟨HIGH, 45, 100⟩, ⟨HIGH, 60, 200⟩, ⟨HIGH, 5, 300⟩]).1.analogValue ≠ 45 :=
  ⟨by decide,
    (published_analog_range [⟨HIGH, 45, 100⟩, ⟨HIGH, 60, 200⟩, ⟨HIGH, 5, 300⟩]).2.1 60
      (by decide),
    ((published_analog_range [⟨HIGH, 45, 100⟩, ⟨HIGH, 60, 200⟩, ⟨HIGH, 5, 300⟩]).2.2 45
      (by decide)).1⟩

/-! ## Wrap-around of the millisecond counter -/

theorem digitalScenarioRun_inputs (a b : Nat → Int) (n : Nat) :
    digitalInputs (digitalScenarioRun a n) = digitalInputs (digitalScenarioRun b n) := by
  simp only [digitalInputs, digitalScenarioRun, List.map_map]
  rfl

theorem digitalScenarioRun_add (a : Nat → Int) (n m : Nat) :
    digitalScenarioRun a (n + m)
      = digitalScenarioRun a n ++ (List.range m).map (fun k => digitalScenario a (n + k)) := by
  simp only [digitalScenarioRun, List.range_add, List.map_append, List.map_map]
  rfl

theorem digitalScenario_start (n : Nat) (hn : n ≤ 9) :
    (runLoop init (digitalScenarioRun (fun _ => 0) n)).1.digitalState
        = (if n ≤ 8 then HIGH else LOW)
      ∧ (runLoop init (digitalScenarioRun (fun _ => 0) n)).2.filter Render.isDigital
        = (if n ≤ 8 then [] else [Render.digital LOW]) := by
  interval_cases n <;> decide

/-- C11 (digital scenario).  From the initial state, with raw readings `HIGH`,
`HIGH`, `LOW`, `LOW`, ... at times 0, 10, 20, 30, ... (raw transition at
time 20) and any analog readings: after the first `n` steps the published
value is `HIGH` and no digital redraw has been issued as long as `n ≤ 8`,
that is for the steps at times up to 70; the step at time 80, the first with
`now - 20 > 50`, publishes `LOW` and issues the one digital redraw of the run,
and every longer run still has published value `LOW` and that single redraw. -/
theorem digital_scenario (a : Nat → Int) (n : Nat) :
    (runLoop init (digitalScenarioRun a n)).1.digitalState = (if n ≤ 8 then HIGH else LOW)
      ∧ (runLoop init (digitalScenarioRun a n)).2.filter Render.isDigital
        = (if n ≤ 8 then [] else [Render.digital LOW])
      ∧ (digitalScenario a 8).now = 80
      ∧ (loop (runLoop init (digitalScenarioRun a 8)).1 (digitalScenario a 8)).2.filter
          Render.isDigital = [Render.digital LOW] := by
  have hind : ∀ m, (runLoop init (digitalScenarioRun a m)).1.digitalState
        = (runLoop init (digitalScenarioRun (fun _ => 0) m)).1.digitalState
      ∧ (runLoop init (digitalScenarioRun a m)).2.filter Render.isDigital
        = (runLoop init (digitalScenarioRun (fun _ => 0) m)).2.filter Render.isDigital := by
    intro m
    have h := run_digital_agree _ _ (digitalScenarioRun_inputs a (fun _ => 0) m) init init
      ⟨rfl, rfl, rfl, rfl⟩
    exact ⟨h.1.1, h.2⟩
  have hshort : ∀ m, m ≤ 9 →
      (runLoop init (digitalScenarioRun a m)).1.digitalState = (if m ≤ 8 then HIGH else LOW)
      ∧ (runLoop init (digitalScenarioRun a m)).2.filter Render.isDigital
        = (if m ≤ 8 then [] else [Render.digital LOW]) := by
    intro m hm
    rw [(hind m).1, (hind m).2]
    exact digitalScenario_start m hm
  have hall : (runLoop init (digitalScenarioRun a n)).1.digitalState
        = (if n ≤ 8 then HIGH else LOW)
      ∧ (runLoop init (digitalScenarioRun a n)).2.filter Render.isDigital
        = (if n ≤ 8 then [] else [Render.digital LOW]) := by
    by_cases hn : n ≤ 9
    · exact hshort n hn
    · obtain ⟨m, rfl⟩ : ∃ m, n = 9 + m := ⟨n - 9, by omega⟩
      obtain ⟨h9s, h9r⟩ := hshort 9 (le_refl 9)
      rw [if_neg (by decide)] at h9s h9r
      have hrest : ∀ o ∈ (List.range m).map (fun k => digitalScenario a (9 + k)),
          o.digitalReading = LOW := by
        intro o ho
        obtain ⟨k, _, rfl⟩ := List.mem_map.mp ho
        have hk : ¬ (9 + k < 2) := by omega
        simp only [digitalScenario, hk, if_false]
      obtain ⟨hc1, hc2⟩ := run_constant LOW _ hrest (runLoop init (digitalScenarioRun a 9)).1
        h9s (run_flags _).1
      rw [digitalScenarioRun_add, runLoop_append]
      have hgt : ¬ (9 + m ≤ 8) := by omega
      rw [if_neg hgt, if_neg hgt]
      refine ⟨hc1, ?_⟩
      simp only [List.filter_append, h9r, hc2, List.append_nil]
  refine ⟨hall.1, hall.2, ?_, ?_⟩
  · simp [digitalScenario]
  · have h8 := (hshort 8 (by decide)).2
    have h9 := (hshort 9 (le_refl 9)).2
    rw [if_pos (le_refl 8)] at h8
    rw [if_neg (by decide)] at h9
    have hsplit : digitalScenarioRun a 9 = digitalScenarioRun a 8 ++ [digitalScenario a 8] := by
      rw [digitalScenarioRun_add a 8 1]
      rfl
    rw [hsplit, runLoop_snoc_snd, List.filter_append, h8, List.nil_append] at h9
    exact h9

/-! ## The analog scenario -/

/-- C12 as stated fails at its first step: at time 0 from the initial state the
sampling guard of line 160 is false (`0 - 0 < 100`), so the tick does not
sample: it leaves the state unchanged whatever the reading is, even for a
reading of 4095 that would be published if it were sampled. -/
theorem first_tick_at_zero_not_sampled :
    ¬ (subUL 0 init.lastAnalogReadTime ≥ analogReadInterval)
      ∧ sampleAnalog init 45 0 = init
      ∧ analogPart init 45 0 = (init, [])
      ∧ analogPart init 4095 0 = (init, [])
      ∧ (analogPart init 4095 100).2 = [Render.analog 4095] := by
  decide

/-- C12 (analog scenario), amended at its first step.  From the initial state
(published value 0), ticks at times 0, 100, 200 with raw readings 45, 60, 5:
at time 0 the tick is not due, so the reading is not sampled (any reading
would be ignored) and nothing is published; at time 100 the tick is due,
publishes 60 and redraws 60; at time 200 the tick is due, the reading is
forced to 0, and the tick publishes 0 and redraws 0; the final published value
is 0.  The same holds inside `loop()` for any digital readings. -/
theorem analog_scenario (d0 d1 d2 : Int) :
    ¬ Due init 0
      ∧ (∀ r : Int, analogPart init r 0 = (init, []))
      ∧ Due (analogPart init 45 0).1 100
      ∧ (analogPart (analogPart init 45 0).1 60 100).2 = [Render.analog 60]
      ∧ (analogPart (analogPart init 45 0).1 60 100).1.analogValue = 60
      ∧ Due (analogPart (analogPart init 45 0).1 60 100).1 200
      ∧ (analogPart (analogPart (analogPart init 45 0).1 60 100).1 5 200).2 = [Render.analog 0]
      ∧ (analogPart (analogPart (analogPart init 45 0).1 60 100).1 5 200).1.analogValue = 0
      ∧ (runLoop init [⟨d0, 45, 0⟩]).2.filter Render.isAnalog = []
      ∧ (runLoop init [⟨d0, 45, 0⟩, ⟨d1, 60, 100⟩]).2.filter Render.isAnalog
          = [Render.analog 60]
      ∧ (runLoop init [⟨d0, 45, 0⟩, ⟨d1, 60, 100⟩, ⟨d2, 5, 200⟩]).2.filter Render.isAnalog
          = [Render.analog 60, Render.analog 0]
      ∧ (runLoop init [⟨d0, 45, 0⟩, ⟨d1, 60, 100⟩, ⟨d2, 5, 200⟩]).1.analogValue = 0 := by
  have hnd : ¬ Due init 0 := by decide
  have h1 := run_analog_agree [⟨d0, 45, 0⟩] [⟨HIGH, 45, 0⟩] rfl init init ⟨rfl, rfl, rfl⟩
  have h2 := run_analog_agree [⟨d0, 45, 0⟩, ⟨d1, 60, 100⟩] [⟨HIGH, 45, 0⟩, ⟨HIGH, 60, 100⟩] rfl
    init init ⟨rfl, rfl, rfl⟩
  have h3 := run_analog_agree [⟨d0, 45, 0⟩, ⟨d1, 60, 100⟩, ⟨d2, 5, 200⟩]
    [⟨HIGH, 45, 0⟩, ⟨HIGH, 60, 100⟩, ⟨HIGH, 5, 200⟩] rfl init init ⟨rfl, rfl, rfl⟩
  refine ⟨hnd, ?_, by decide, by decide, by decide, by decide, by decide, by decide,
    ?_, ?_, ?_, ?_⟩
  · intro r
    unfold analogPart
    rw [sampleAnalog_not_due init r 0 hnd]
    exact flushAnalog_idle init rfl
  · rw [h1.2]
    decide
  · rw [h2.2]
    decide
  · rw [h3.2]
    decide
  · rw [h3.1.1]
    decide

/-! ## Flicker shorter than the debounce interval -/

theorem run_redrawDigital (xs : List Input) (s : State) (hflag : s.redrawDigital = false) :
    (runLoop s xs).1.redrawDigital = false := by
  induction xs generalizing s with
  | nil => exact hflag
  | cons i rest ih =>
    rw [runLoop_cons]
    exact ih (loop s i).1 (loop_redrawDigital s i)

theorem lastReading_constant (v : Int) (xs : List Input) (hxs : ∀ o ∈ xs, o.digitalReading = v) :
    lastReading v xs = v := by
  induction xs with
  | nil => rfl
  | cons i rest ih =>
    simp only [lastReading]
    rw [hxs i (List.mem_cons_self _ _)]
    exact ih (fun o ho => hxs o (List.mem_cons_of_mem _ ho))

theorem run_no_digital_render (xs : List Input) (s : State) (hflag : s.redrawDigital = false)
    (hnone : (runLoop s xs).2.filter Render.isDigital = []) :
    ∀ pre ∈ xs.inits, (runLoop s pre).1.digitalState = s.digitalState := by
  induction xs generalizing s with
  | nil =>
    intro pre hpre
    simp only [List.inits, List.mem_singleton] at hpre
    rw [hpre]
    rfl
  | cons i rest ih =>
    rw [runLoop_cons, List.filter_append, List.append_eq_nil] at hnone
    obtain ⟨hfirst, hrest⟩ := hnone
    have hstep : (loop s i).1.digitalState = s.digitalState := by
      rw [loop_digital_renders] at hfirst
      rw [loop_digitalState]
      by_cases hacc : Accepts s i.digitalReading i.now
      · rw [if_pos (Or.inl hacc)] at hfirst
        simp at hfirst
      · rw [if_neg hacc]
    intro pre hpre
    rw [List.inits_cons, List.mem_cons, List.mem_map] at hpre
    rcases hpre with hpre | ⟨p, hp, hpre⟩
    · rw [hpre]
      rfl
    · rw [← hpre, runLoop_cons, ih (loop s i).1 (loop_redrawDigital s i) hrest p hp]
      exact hstep

theorem run_flick (v : Int) (t1 : Nat) (xs : List Input)
    (hxs : ∀ o ∈ xs, o.digitalReading ≠ v ∧ t1 ≤ o.now ∧ o.now ≤ t1 + debounceInterval
      ∧ o.now < ULONG_RANGE)
    (hmono : NonDecreasing xs) (s : State) (hs : s.digitalState = v)
    (hflag : s.redrawDigital = false)
    (htimer : s.lastDigitalState = v
      ∨ (t1 ≤ s.lastDebounceTime ∧ ∀ o ∈ xs, s.lastDebounceTime ≤ o.now)) :
    (runLoop s xs).1.digitalState = v
      ∧ (runLoop s xs).2.filter Render.isDigital = [] := by
  induction xs generalizing s with
  | nil => exact ⟨hs, rfl⟩
  | cons o rest ih =>
    obtain ⟨hne, hlo, hhi, hrng⟩ := hxs o (List.mem_cons_self _ _)
    unfold NonDecreasing at hmono
    rw [List.pairwise_cons] at hmono
    have hnot : ¬ Accepts s o.digitalReading o.now := by
      rintro ⟨h1, h2, _⟩
      rcases htimer with hv | ⟨hge, hle⟩
      · exact hne (h1.trans hv)
      · have hle2 := hle o (List.mem_cons_self _ _)
        rw [subUL_of_le hle2 hrng] at h2
        unfold debounceInterval at h2 hhi
        omega
    have hstate : (loop s o).1.digitalState = v := by
      rw [loop_digitalState, if_neg hnot]
      exact hs
    have hnone : (loop s o).2.filter Render.isDigital = [] := by
      rw [loop_digital_renders, if_neg]
      rintro (h | h)
      · exact hnot h
      · rw [hflag] at h
        exact Bool.false_ne_true h
    have htimer2 : (loop s o).1.lastDigitalState = v
        ∨ (t1 ≤ (loop s o).1.lastDebounceTime
          ∧ ∀ o2 ∈ rest, (loop s o).1.lastDebounceTime ≤ o2.now) := by
      right
      rw [loop_lastDebounceTime]
      by_cases heq : o.digitalReading = s.lastDigitalState
      · rw [if_pos heq]
        rcases htimer with hv | ⟨hge, hle⟩
        · exact absurd (heq.trans hv) hne
        · exact ⟨hge, fun o2 ho2 => hle o2 (List.mem_cons_of_mem _ ho2)⟩
      · rw [if_neg heq]
        exact ⟨hlo, fun o2 ho2 => hmono.1 o2 ho2⟩
    obtain ⟨h1, h2⟩ := ih (fun o2 ho2 => hxs o2 (List.mem_cons_of_mem _ ho2)) hmono.2
      (loop s o).1 hstate (loop_redrawDigital s o) htimer2
    rw [runLoop_cons]
    refine ⟨h1, ?_⟩
    simp only [List.filter_append, hnone, h2, List.append_nil]

/-- C13 (flicker suppression).  Take any state at an iteration boundary whose
published value and last raw reading both equal `v`, and any inputs with
non-decreasing `unsigned long` timestamps made of: readings `v`; then readings
different from `v`, the first at time `t1 = f.now` and all of them at most 50
time units after `t1`; then readings `v` again, for arbitrarily long.  Then no
iteration issues a digital redraw and the published value is `v` after every
iteration. -/
theorem flicker_suppression (s : State) (v : Int) (before more after : List Input) (f : Input)
    (hs : s.digitalState = v) (hl : s.lastDigitalState = v) (hflag : s.redrawDigital = false)
    (hbefore : ∀ o ∈ before, o.digitalReading = v)
    (hflick : ∀ o ∈ f :: more, o.digitalReading ≠ v ∧ o.now ≤ f.now + debounceInterval)
    (hafter : ∀ o ∈ after, o.digitalReading = v)
    (hmono : NonDecreasing (before ++ ((f :: more) ++ after)))
    (hrange : InRange (before ++ ((f :: more) ++ after))) :
    (∀ pre ∈ (before ++ ((f :: more) ++ after)).inits, (runLoop s pre).1.digitalState = v)
      ∧ (runLoop s (before ++ ((f :: more) ++ after))).2.filter Render.isDigital = [] := by
  have hmono2 := hmono
  unfold NonDecreasing at hmono2
  rw [List.pairwise_append, List.pairwise_append] at hmono2
  obtain ⟨_, ⟨hmf, _, _⟩, _⟩ := hmono2
  have hmf2 := hmf
  rw [List.pairwise_cons] at hmf2
  obtain ⟨h1s, h1r⟩ := run_constant v before hbefore s hs hflag
  have h1l : (runLoop s before).1.lastDigitalState = v := by
    rw [run_lastDigitalState, hl]
    exact lastReading_constant v before hbefore
  have h1f := run_redrawDigital before s hflag
  have hxs : ∀ o ∈ f :: more, o.digitalReading ≠ v ∧ f.now ≤ o.now
      ∧ o.now ≤ f.now + debounceInterval ∧ o.now < ULONG_RANGE := by
    intro o ho
    refine ⟨(hflick o ho).1, ?_, (hflick o ho).2, ?_⟩
    · rcases List.mem_cons.mp ho with ho | ho
      · rw [ho]
      · exact hmf2.1 o ho
    · exact hrange o (List.mem_append_right _ (List.mem_append_left _ ho))
  obtain ⟨h2s, h2r⟩ := run_flick v f.now (f :: more) hxs hmf (runLoop s before).1 h1s h1f
    (Or.inl h1l)
  have h2f := run_redrawDigital (f :: more) (runLoop s before).1 h1f
  obtain ⟨h3s, h3r⟩ := run_constant v after hafter
    (runLoop (runLoop s before).1 (f :: more)).1 h2s h2f
  have hnone : (runLoop s (before ++ ((f :: more) ++ after))).2.filter Render.isDigital = [] := by
    rw [runLoop_append, runLoop_append]
    simp only [List.filter_append, h1r, h2r, h3r, List.append_nil]
  refine ⟨?_, hnone⟩
  intro pre hpre
  rw [run_no_digital_render _ s hflag hnone pre hpre]
  exact hs

theorem flicker_suppression_witness :
    (runLoop (runLoop init [⟨LOW, 0, 0⟩, ⟨LOW, 0, 51⟩]).1
        ([⟨LOW, 0, 60⟩] ++ ((⟨HIGH, 0, 100⟩ :: [⟨HIGH, 0, 120⟩, ⟨HIGH, 0, 150⟩])
          ++ [⟨LOW, 0, 151⟩, ⟨LOW, 0, 400⟩, ⟨LOW, 0, 900⟩]))).2.filter Render.isDigital = []
      ∧ (runLoop init [⟨LOW, 0, 0⟩, ⟨LOW, 0, 51⟩]).1.digitalState = LOW :=
  ⟨(flicker_suppression (runLoop init [⟨LOW, 0, 0⟩, ⟨LOW, 0, 51⟩]).1 LOW
      [⟨LOW, 0, 60⟩] [⟨HIGH, 0, 120⟩, ⟨HIGH, 0, 150⟩]
      [⟨LOW, 0, 151⟩, ⟨LOW, 0, 400⟩, ⟨LOW, 0, 900⟩] ⟨HIGH, 0, 100⟩
      (by decide) (by decide) (by decide) (by decide) (by decide) (by decide)
      (by decide) (by decide)).2,
    by decide⟩

end KY024
